import Mathlib

/-!
# Verification of the xdiff CLI, the moved-block detector, and the diff/merge engine spec

This file gives a shallow embedding of the `sergev/xdiff` repository:

* the moved-block detector (`xdiff-moved.c`): block hashing with its own
  whitespace-normalization modes, hash-based matching of deleted/added
  blocks, the minimum-alphanumeric-size filter and zebra indexing;
* the command-line front end (`xdiff-cli.c`): the hunk/line output
  callbacks, the `--moved` option handling, and the exit-code logic of
  `main`;
* a model of the core diff and merge engine (which this repository links
  against but whose sources are not part of it), built from the written
  specification: line splitting, whitespace normalization policies, the
  Myers / Patience / Histogram edit-script algorithms, change compaction,
  context emission, and three-way merge with conflict markers.

Text is modelled as `List Char`; the byte value of a character, where the C
code reads `unsigned char`, is `Char.toNat`.  C `unsigned long` arithmetic
is modelled on `Nat` with explicit reduction modulo `2 ^ 64`.
-/

set_option autoImplicit false

namespace Xdiff

/-- The modulus of C `unsigned long` arithmetic on the target platform. -/
def ULONG_MOD : Nat := 2 ^ 64

/-- C-locale `isspace` on a byte, as used by `xdiff-moved.c`. -/
def isspace_c (c : Char) : Bool :=
  c.toNat = 32 ∨ c.toNat = 9 ∨ c.toNat = 10 ∨ c.toNat = 11 ∨ c.toNat = 12 ∨ c.toNat = 13

/-- C-locale `isalnum` on a byte, as used by `xdiff-moved.c`. -/
def isalnum_c (c : Char) : Bool :=
  (48 ≤ c.toNat ∧ c.toNat ≤ 57) ∨ (65 ≤ c.toNat ∧ c.toNat ≤ 90) ∨
    (97 ≤ c.toNat ∧ c.toNat ≤ 122)

/-- `djb2_hash` from `xdiff-moved.c`: `hash = hash * 33 + byte`, on
`unsigned long`, starting from 5381. -/
def djb2_hash (s : List Char) : Nat :=
  s.foldl (fun h c => (h * 33 + c.toNat) % ULONG_MOD) 5381

/-- Move-detection modes (`enum moved_mode` in `xdiff-moved.h`). -/
inductive MovedMode where
  | no
  | plain
  | blocks
  | zebra
  | dimmed_zebra
deriving DecidableEq, Repr

/-- Whitespace handling modes for move detection (`enum moved_ws_mode`). -/
inductive MovedWsMode where
  | ws_no
  | ignore_all
  | ignore_change
  | ignore_at_eol
deriving DecidableEq, Repr

/-- `normalize_whitespace` from `xdiff-moved.c`.  `ignore_all` drops every
whitespace byte; `ignore_change` collapses every whitespace run to a single
space; `ignore_at_eol` drops trailing whitespace; otherwise the line is
copied unchanged. -/
def normalize_whitespace (ws_mode : MovedWsMode) (line : List Char) : List Char :=
  match ws_mode with
  | .ignore_all => line.filter (fun c => ¬ isspace_c c)
  | .ignore_change => collapse line false
  | .ignore_at_eol => (line.reverse.dropWhile (fun c => isspace_c c)).reverse
  | .ws_no => line
where
  /-- The `MOVED_WS_IGNORE_CHANGE` loop: `prev_space` tracks whether the
  previous byte was whitespace. -/
  collapse : List Char → Bool → List Char
    | [], _ => []
    | c :: rest, prev_space =>
      if isspace_c c then
        if prev_space then collapse rest true else ' ' :: collapse rest true
      else
        c :: collapse rest false

/-- `count_alnum` from `xdiff-moved.c`. -/
def count_alnum (line : List Char) : Nat :=
  (line.filter (fun c => isalnum_c c)).length

/-- `compute_block_hash` from `xdiff-moved.c`: hash each of the `count`
records starting at `start` after normalizing it with the move detector's
own whitespace mode, and combine the per-line hashes with the djb2 step. -/
def compute_block_hash (recs : List (List Char)) (start count : Nat)
    (ws_mode : MovedWsMode) : Nat :=
  (List.range count).foldl
    (fun h i =>
      (h * 33 + djb2_hash (normalize_whitespace ws_mode (recs.getD (start + i) []))) % ULONG_MOD)
    5381

/-- `count_block_alnum` from `xdiff-moved.c`. -/
def count_block_alnum (recs : List (List Char)) (start count : Nat) : Nat :=
  (List.range count).foldl (fun t i => t + count_alnum (recs.getD (start + i) [])) 0

/-- `struct moved_block` from `xdiff-moved.h`.  Line numbers are 1-based;
`match_line` is `-1` when the block has never been matched. -/
structure MovedBlock where
  start_line : Nat
  end_line : Nat
  hash : Nat
  is_deleted : Bool
  matched : Bool
  match_line : Int
  zebra_index : Int
deriving DecidableEq, Repr

/-- `moved_block_alloc` from `xdiff-moved.c`: a fresh block is unmatched,
with `match_line = -1` and `zebra_index = -1`. -/
def moved_block_alloc (start_line end_line : Nat) (hash : Nat) (is_deleted : Bool) :
    MovedBlock :=
  { start_line := start_line, end_line := end_line, hash := hash,
    is_deleted := is_deleted, matched := false, match_line := -1, zebra_index := -1 }

/-- `xdchange_t`: one compacted change of the diff engine's change script.
`i1`/`i2` are 0-based line indices into the old/new file, `chg1`/`chg2` the
numbers of deleted/added lines, `ignore` the flag set by the compactor for
changes fully elided by the ignore-blank-lines / ignore-regex policy. -/
structure XChange where
  i1 : Nat
  chg1 : Nat
  i2 : Nat
  chg2 : Nat
  ignore : Bool
deriving DecidableEq, Repr

/-- The block-collection loop of `collect_blocks_from_diff`: walk the change
script in order, skip ignored changes, and prepend a deleted block for each
change with `chg1 > 0` and an added block for each change with `chg2 > 0`
(the C code pushes onto the heads of the two context lists). -/
def collect_phase (recs1 recs2 : List (List Char)) (ws_mode : MovedWsMode) :
    List XChange → List MovedBlock × List MovedBlock → List MovedBlock × List MovedBlock
  | [], acc => acc
  | xch :: rest, acc =>
    if xch.ignore then
      collect_phase recs1 recs2 ws_mode rest acc
    else
      let dels :=
        if 0 < xch.chg1 then
          moved_block_alloc (xch.i1 + 1) (xch.i1 + xch.chg1)
            (compute_block_hash recs1 xch.i1 xch.chg1 ws_mode) true :: acc.1
        else acc.1
      let adds :=
        if 0 < xch.chg2 then
          moved_block_alloc (xch.i2 + 1) (xch.i2 + xch.chg2)
            (compute_block_hash recs2 xch.i2 xch.chg2 ws_mode) false :: acc.2
        else acc.2
      collect_phase recs1 recs2 ws_mode rest (dels, adds)

/-- The inner loop of the matching phase: scan the added list for the first
unmatched block whose hash equals the deleted block's hash; mark it matched
with `match_line` pointing at the deleted block and report its start line. -/
def try_match (d : MovedBlock) : List MovedBlock → Option (List MovedBlock × Nat)
  | [] => none
  | a :: rest =>
    if ¬ a.matched ∧ a.hash = d.hash then
      some ({ a with matched := true, match_line := (d.start_line : Int) } :: rest,
            a.start_line)
    else
      match try_match d rest with
      | none => none
      | some (l, s) => some (a :: l, s)

/-- The matching phase of `collect_blocks_from_diff`: walk the deleted list
in order; each still-unmatched deleted block is paired with the first
unmatched added block having an equal hash, and both record each other's
start line in `match_line`. -/
def match_phase : List MovedBlock → List MovedBlock → List MovedBlock × List MovedBlock
  | [], adds => ([], adds)
  | d :: ds, adds =>
    if d.matched then
      let r := match_phase ds adds
      (d :: r.1, r.2)
    else
      match try_match d adds with
      | none =>
        let r := match_phase ds adds
        (d :: r.1, r.2)
      | some (adds1, a_start) =>
        let r := match_phase ds adds1
        ({ d with matched := true, match_line := (a_start : Int) } :: r.1, r.2)

/-- The partner condition of the size filter's inner search: a matched
added block with the deleted block's hash whose `match_line` is the deleted
block's start line. -/
def filter_pred (d a : MovedBlock) : Prop :=
  a.matched = true ∧ a.hash = d.hash ∧ a.match_line = (d.start_line : Int)

instance (d a : MovedBlock) : Decidable (filter_pred d a) := by
  unfold filter_pred
  infer_instance

/-- The alphanumeric size of a deleted block's lines in the old file, as the
size filter computes it. -/
def blk_alnum (recs1 : List (List Char)) (d : MovedBlock) : Nat :=
  count_block_alnum recs1 (d.start_line - 1) (d.end_line - d.start_line + 1)

/-- The partner search of the size filter: find the first added block that is
matched, has the deleted block's hash, and whose `match_line` is the deleted
block's start line; when `small` is set, unmatch it.  The returned flag says
whether such a partner was found. -/
def filter_scan (small : Bool) (d : MovedBlock) :
    List MovedBlock → List MovedBlock × Bool
  | [] => ([], false)
  | a :: rest =>
    if filter_pred d a then
      (if small then ({ a with matched := false } :: rest, true) else (a :: rest, true))
    else
      let r := filter_scan small d rest
      (a :: r.1, r.2)

/-- One step of the size filter (`MOVED_MODE_BLOCKS` and the zebra modes):
for a matched deleted block, count the alphanumeric characters of its lines
in the old file; if they are fewer than `min_size` and the partner is found,
unmatch both blocks.  `match_line` is left untouched. -/
def filter_one (recs1 : List (List Char)) (min_size : Nat) (d : MovedBlock)
    (adds : List MovedBlock) : MovedBlock × List MovedBlock :=
  if d.matched then
    let small := blk_alnum recs1 d < min_size
    let r := filter_scan small d adds
    (if r.2 ∧ small then { d with matched := false } else d, r.1)
  else (d, adds)

/-- The size-filter phase: fold `filter_one` over the deleted list, threading
the added list through. -/
def filter_phase (recs1 : List (List Char)) (min_size : Nat) :
    List MovedBlock → List MovedBlock → List MovedBlock × List MovedBlock
  | [], adds => ([], adds)
  | d :: ds, adds =>
    let r := filter_one recs1 min_size d adds
    let rest := filter_phase recs1 min_size ds r.2
    (r.1 :: rest.1, rest.2)

/-- The zebra-index inner loop: give the first matched added block with the
deleted block's hash the same zebra index. -/
def zebra_scan (d : MovedBlock) (idx : Int) : List MovedBlock → List MovedBlock
  | [] => []
  | a :: rest =>
    if a.matched ∧ a.hash = d.hash then { a with zebra_index := idx } :: rest
    else a :: zebra_scan d idx rest

/-- The zebra-index phase (`MOVED_MODE_ZEBRA` and `MOVED_MODE_DIMMED_ZEBRA`):
number the matched deleted blocks in list order and copy each index to the
first matched added block with the same hash. -/
def zebra_phase (counter : Int) :
    List MovedBlock → List MovedBlock → List MovedBlock × List MovedBlock × Int
  | [], adds => ([], adds, counter)
  | d :: ds, adds =>
    if d.matched ∧ d.zebra_index = -1 then
      let adds1 := zebra_scan d counter adds
      let rest := zebra_phase (counter + 1) ds adds1
      ({ d with zebra_index := counter } :: rest.1, rest.2.1, rest.2.2)
    else
      let rest := zebra_phase counter ds adds
      (d :: rest.1, rest.2.1, rest.2.2)

/-- `MIN_BLOCK_SIZE` from `xdiff-moved.c`. -/
def MIN_BLOCK_SIZE : Nat := 20

/-- `struct moved_context` from `xdiff-moved.h`. -/
structure MovedContext where
  mode : MovedMode
  ws_mode : MovedWsMode
  min_block_size : Nat
  deleted_blocks : List MovedBlock
  added_blocks : List MovedBlock
  zebra_counter : Int
deriving DecidableEq, Repr

/-- `moved_context_init` from `xdiff-moved.c`. -/
def moved_context_init (mode : MovedMode) (ws_mode : MovedWsMode) : MovedContext :=
  { mode := mode, ws_mode := ws_mode, min_block_size := MIN_BLOCK_SIZE,
    deleted_blocks := [], added_blocks := [], zebra_counter := 0 }

/-- Whether a mode runs the minimum-size filter (the `BLOCKS`/`ZEBRA`/
`DIMMED_ZEBRA` branch of `collect_blocks_from_diff`). -/
def MovedMode.filters : MovedMode → Bool
  | .blocks | .zebra | .dimmed_zebra => true
  | _ => false

/-- Whether a mode assigns zebra indices. -/
def MovedMode.zebraing : MovedMode → Bool
  | .zebra | .dimmed_zebra => true
  | _ => false

/-- `collect_blocks_from_diff` from `xdiff-moved.c`, starting from the change
script: collect deleted/added blocks (hashing each with the context's own
whitespace mode), then — unless the mode is `no` — match blocks by hash,
apply the minimum-size filter in the filtering modes, and assign zebra
indices in the zebra modes.  The change script and the two record arrays
stand for `xscr` and `xe.xdf1.recs`/`xe.xdf2.recs` computed by the engine. -/
def collect_blocks_from_diff (recs1 recs2 : List (List Char))
    (changes : List XChange) (ctx : MovedContext) : MovedContext :=
  let c := collect_phase recs1 recs2 ctx.ws_mode changes ([], [])
  if ctx.mode = .no then
    { ctx with deleted_blocks := c.1, added_blocks := c.2 }
  else
    let m := match_phase c.1 c.2
    let f := if ctx.mode.filters then filter_phase recs1 ctx.min_block_size m.1 m.2 else m
    let z :=
      if ctx.mode.zebraing then zebra_phase 0 f.1 f.2 else (f.1, f.2, ctx.zebra_counter)
    { ctx with deleted_blocks := z.1, added_blocks := z.2.1, zebra_counter := z.2.2 }

/-- `is_line_moved` from `xdiff-moved.c`. -/
def is_line_moved (ctx : MovedContext) (line_num : Int) (is_deleted : Bool) : Bool :=
  if ctx.mode = .no then false
  else
    (if is_deleted then ctx.deleted_blocks else ctx.added_blocks).any
      (fun b => b.matched ∧ (b.start_line : Int) ≤ line_num ∧ line_num ≤ (b.end_line : Int))

/-- `get_moved_zebra_index` from `xdiff-moved.c`. -/
def get_moved_zebra_index (ctx : MovedContext) (line_num : Int) (is_deleted : Bool) : Int :=
  if ctx.mode ≠ .zebra ∧ ctx.mode ≠ .dimmed_zebra then -1
  else
    match (if is_deleted then ctx.deleted_blocks else ctx.added_blocks).find?
        (fun b => b.matched ∧ (b.start_line : Int) ≤ line_num ∧ line_num ≤ (b.end_line : Int)) with
    | some b => b.zebra_index
    | none => -1

/-- `is_line_dimmed` from `xdiff-moved.c`: a line of a matched block is
dimmed when it is strictly inside the block. -/
def is_line_dimmed (ctx : MovedContext) (line_num : Int) (is_deleted : Bool) : Bool :=
  if ctx.mode ≠ .dimmed_zebra then false
  else
    (if is_deleted then ctx.deleted_blocks else ctx.added_blocks).any
      (fun b => b.matched ∧ (b.start_line : Int) < line_num ∧ line_num < (b.end_line : Int))

/-! ## The diff engine, modelled from the specification

The core engine (`xdl_diff` and its helpers) is linked from the upstream
xdiff library and is not part of this repository's sources; only its header
declarations, the README's API documentation and its callers are.  The
definitions below are therefore modelled from the specification: the Line
Table Builder (§4.1), the Equivalence Classifier (§4.2, using the
normalized content itself as the equivalence-class id, which realizes its
invariant exactly), the three edit-script algorithms (§4.3), the Change
Compactor (§4.4) and the Emission Layer (§4.5).  Recursions are bounded by
an explicit fuel argument, following §9's advice to bound recursion depth
explicitly. -/

/-- Modelled from the spec: the Line Table Builder's splitting rule (§4.1) —
split on line feeds; a final unterminated line is still a record.  Records
are kept without their terminating newline. -/
def split_lines (buf : List Char) : List (List Char) :=
  go [] buf
where
  go (cur : List Char) : List Char → List (List Char)
    | [] => if cur.isEmpty then [] else [cur.reverse]
    | c :: rest => if c = '\n' then cur.reverse :: go [] rest else go (c :: cur) rest

/-- Modelled from the spec: the preprocessing policy (§4.1/§6) — the
whitespace flags, blank-line elision, the minimal-edit-script flag and the
ignore-regex predicates (an opaque predicate capability, per §9). -/
structure DiffPolicy where
  ignore_all_ws : Bool
  ignore_ws_change : Bool
  ignore_ws_eol : Bool
  ignore_cr_eol : Bool
  ignore_blank : Bool
  ignore_line : List Char → Bool
  minimal : Bool

/-- The policy of a run with no flags set (the CLI's default). -/
def defaultPolicy : DiffPolicy :=
  { ignore_all_ws := false, ignore_ws_change := false, ignore_ws_eol := false,
    ignore_cr_eol := false, ignore_blank := false, ignore_line := fun _ => false,
    minimal := false }

/-- Modelled from the spec: normalization prior to hashing (§4.1).  The
carriage-return-at-eol rule strips a trailing `\r`; the three whitespace
rules mirror the repository's own `normalize_whitespace` shape (all
whitespace dropped / runs collapsed to one marker / trailing whitespace
dropped). -/
def normalize_line (pol : DiffPolicy) (line : List Char) : List Char :=
  let line :=
    if pol.ignore_cr_eol then
      match line.reverse with
      | '\r' :: rest => rest.reverse
      | _ => line
    else line
  if pol.ignore_all_ws then normalize_whitespace .ignore_all line
  else if pol.ignore_ws_change then normalize_whitespace .ignore_change line
  else if pol.ignore_ws_eol then normalize_whitespace .ignore_at_eol line
  else line

/-- Modelled from the spec: a line is elided from the sequence when the
ignore-blank-lines option is active and the line normalizes to empty or
fully matches an ignore predicate (§4.1). -/
def elide_line (pol : DiffPolicy) (line : List Char) : Bool :=
  pol.ignore_blank ∧ (normalize_line pol line = [] ∨ pol.ignore_line line)

/-- Modelled from the spec: the class-id sequence of a buffer — split into
lines, elide per policy, and take each remaining line's normalized content
as its equivalence class (§4.1–§4.2; per §4.1 the elision changes the line
counts seen downstream). -/
def class_seq (pol : DiffPolicy) (buf : List Char) : List (List Char) :=
  ((split_lines buf).filter (fun l => ¬ elide_line pol l)).map (normalize_line pol)

/-- Modelled from the spec: one operation of an Edit Script (§3). -/
inductive EditOp (α : Type) where
  | keep : α → EditOp α
  | del : α → EditOp α
  | ins : α → EditOp α
deriving DecidableEq, Repr

/-- Modelled from the spec: the Myers algorithm (§4.3), as a shortest-edit
-script recursion over the two class-id sequences: equal heads are kept;
otherwise the shorter of the delete-first and insert-first scripts is
taken, preferring deletion on ties (deletions precede insertions in a
hunk).  The fuel argument bounds the recursion (§9); `ses_fuel` with fuel
below the combined length degenerates to delete-all/insert-all. -/
def ses_fuel {α : Type} [DecidableEq α] : Nat → List α → List α → List (EditOp α)
  | _, [], ys => ys.map EditOp.ins
  | _, x :: xs, [] => (x :: xs).map EditOp.del
  | 0, x :: xs, y :: ys => ((x :: xs).map EditOp.del) ++ ((y :: ys).map EditOp.ins)
  | fuel + 1, x :: xs, y :: ys =>
    if x = y then EditOp.keep x :: ses_fuel fuel xs ys
    else
      let dbr := EditOp.del x :: ses_fuel fuel xs (y :: ys)
      let ibr := EditOp.ins y :: ses_fuel fuel (x :: xs) ys
      if ibr.length < dbr.length then ibr else dbr

/-- The Myers model with enough fuel for any input. -/
def myers {α : Type} [DecidableEq α] (xs ys : List α) : List (EditOp α) :=
  ses_fuel (xs.length + ys.length) xs ys

/-- Modelled from the spec: the Change Compactor's grouping step (§4.4) —
count the deletions and insertions of the maximal change run at the head of
the script and return the remainder. -/
def take_change {α : Type} : List (EditOp α) → Nat × Nat × List (EditOp α)
  | EditOp.del _ :: rest =>
    let r := take_change rest
    (r.1 + 1, r.2.1, r.2.2)
  | EditOp.ins _ :: rest =>
    let r := take_change rest
    (r.1, r.2.1 + 1, r.2.2)
  | l => (0, 0, l)

/-- Modelled from the spec: the Change Compactor (§4.4) — walk the edit
script with 0-based line cursors for both files and extract the maximal
change runs as Change Hunks.  The fuel argument bounds the recursion. -/
def to_hunks_fuel {α : Type} : Nat → List (EditOp α) → Nat → Nat → List XChange
  | 0, _, _, _ => []
  | _ + 1, [], _, _ => []
  | fuel + 1, EditOp.keep _ :: rest, o, n => to_hunks_fuel fuel rest (o + 1) (n + 1)
  | fuel + 1, EditOp.del x :: rest, o, n =>
    let r := take_change (EditOp.del x :: rest)
    { i1 := o, chg1 := r.1, i2 := n, chg2 := r.2.1, ignore := false } ::
      to_hunks_fuel fuel r.2.2 (o + r.1) (n + r.2.1)
  | fuel + 1, EditOp.ins y :: rest, o, n =>
    let r := take_change (EditOp.ins y :: rest)
    { i1 := o, chg1 := r.1, i2 := n, chg2 := r.2.1, ignore := false } ::
      to_hunks_fuel fuel r.2.2 (o + r.1) (n + r.2.1)

/-- The Change Hunks of an edit script. -/
def to_hunks {α : Type} (script : List (EditOp α)) : List XChange :=
  to_hunks_fuel (script.length + 1) script 0 0

/-- Modelled from the spec: interhunk joining (§4.4) — two adjacent hunks
separated by fewer than `k` kept lines are merged into one.  The fuel
argument bounds the recursion. -/
def join_hunks_fuel : Nat → Nat → List XChange → List XChange
  | 0, _, l => l
  | _ + 1, _, [] => []
  | _ + 1, _, [h] => [h]
  | fuel + 1, k, h1 :: h2 :: rest =>
    if h2.i1 < h1.i1 + h1.chg1 + k then
      join_hunks_fuel fuel k
        ({ i1 := h1.i1, chg1 := h2.i1 + h2.chg1 - h1.i1,
           i2 := h1.i2, chg2 := h2.i2 + h2.chg2 - h1.i2,
           ignore := h1.ignore ∧ h2.ignore } :: rest)
    else h1 :: join_hunks_fuel fuel k (h2 :: rest)

/-- Interhunk joining with enough fuel for any input. -/
def join_hunks (k : Nat) (l : List XChange) : List XChange :=
  join_hunks_fuel l.length k l

/-! ### Patience (§4.3) -/

/-- Number of occurrences of a value in a sequence. -/
def occ {α : Type} [DecidableEq α] (v : α) (xs : List α) : Nat :=
  (xs.filter (fun x => x = v)).length

/-- Index of the first occurrence of a value. -/
def idx_of {α : Type} [DecidableEq α] (v : α) : List α → Nat
  | [] => 0
  | x :: xs => if x = v then 0 else idx_of v xs + 1

/-- Modelled from the spec: the position pairs of lines that are globally
unique in both sequences (§4.3, Patience), in file-1 order. -/
def unique_pairs {α : Type} [DecidableEq α] (xs ys : List α) : List (Nat × Nat) :=
  xs.enum.filterMap (fun p =>
    if occ p.2 xs = 1 ∧ occ p.2 ys = 1 then some (p.1, idx_of p.2 ys) else none)

/-- Modelled from the spec: a longest subsequence of the pair list whose
second components are increasing and at least `bound` (the
patience-sorting-style longest-increasing-subsequence step of §4.3; the
first components are increasing by construction). -/
def lis_from : Nat → List (Nat × Nat) → List (Nat × Nat)
  | _, [] => []
  | bound, p :: ps =>
    if bound ≤ p.2 then
      let withP := p :: lis_from (p.2 + 1) ps
      let without := lis_from bound ps
      if withP.length < without.length then without else withP
    else lis_from bound ps

/-- Modelled from the spec: the Patience algorithm (§4.3) — keep the first
anchor of the longest increasing unique-common subsequence and solve the
region before it and the region after it recursively (uniqueness is
re-evaluated inside each region, so the later anchors are rediscovered
there); a region with no unique common line falls back to the Myers model.
The fuel argument bounds the recursion (§9). -/
def patience_fuel {α : Type} [DecidableEq α] : Nat → List α → List α → List (EditOp α)
  | 0, xs, ys => ses_fuel (xs.length + ys.length) xs ys
  | fuel + 1, xs, ys =>
    match lis_from 0 (unique_pairs xs ys) with
    | [] => ses_fuel (xs.length + ys.length) xs ys
    | (i, j) :: _ =>
      patience_fuel fuel (xs.take i) (ys.take j) ++
        ((xs.drop i).take 1).map EditOp.keep ++
        patience_fuel fuel (xs.drop (i + 1)) (ys.drop (j + 1))

/-- The Patience model with enough fuel for any input. -/
def patience_diff {α : Type} [DecidableEq α] (xs ys : List α) : List (EditOp α) :=
  patience_fuel (xs.length + ys.length) xs ys

/-! ### Histogram (§4.3) -/

/-- All position pairs of common lines. -/
def candidate_pairs {α : Type} [DecidableEq α] (xs ys : List α) : List (Nat × Nat) :=
  xs.enum.flatMap (fun p =>
    ys.enum.filterMap (fun q => if q.2 = p.2 then some (p.1, q.1) else none))

/-- Occurrence count of the line at an index. -/
def cnt_at {α : Type} [DecidableEq α] (xs : List α) (i : Nat) : Nat :=
  match xs.get? i with
  | some v => occ v xs
  | none => 0

/-- How far a match at `(i, j)` extends backward across adjacent equal
lines. -/
def ext_back {α : Type} [DecidableEq α] (xs ys : List α) : Nat → Nat → Nat
  | i + 1, j + 1 =>
    match xs.get? i, ys.get? j with
    | some a, some b => if a = b then ext_back xs ys i j + 1 else 0
    | _, _ => 0
  | _, _ => 0

/-- Forward extension, with fuel bounding the walk. -/
def ext_fwd_aux {α : Type} [DecidableEq α] (xs ys : List α) : Nat → Nat → Nat → Nat
  | 0, _, _ => 0
  | f + 1, i, j =>
    match xs.get? (i + 1), ys.get? (j + 1) with
    | some a, some b => if a = b then ext_fwd_aux xs ys f (i + 1) (j + 1) + 1 else 0
    | _, _ => 0

/-- How far a match at `(i, j)` extends forward across adjacent equal
lines. -/
def ext_fwd {α : Type} [DecidableEq α] (xs ys : List α) (i j : Nat) : Nat :=
  ext_fwd_aux xs ys xs.length i j

/-- Total length of the extended match anchored at `(i, j)`. -/
def ext_len {α : Type} [DecidableEq α] (xs ys : List α) (i j : Nat) : Nat :=
  ext_back xs ys i j + 1 + ext_fwd xs ys i j

/-- The selection key of a Histogram anchor candidate (§4.3): occurrence
count first, then longest extended match (encoded by subtraction from the
file length, an upper bound of any extension), then earliest file-1
position. -/
def key_of {α : Type} [DecidableEq α] (xs ys : List α) (p : Nat × Nat) : Nat × Nat × Nat :=
  (cnt_at xs p.1, xs.length - ext_len xs ys p.1 p.2, p.1)

/-- Strict lexicographic comparison of selection keys. -/
def lt3 (a b : Nat × Nat × Nat) : Bool :=
  a.1 < b.1 ∨ (a.1 = b.1 ∧ (a.2.1 < b.2.1 ∨ (a.2.1 = b.2.1 ∧ a.2.2 < b.2.2)))

/-- One step of the anchor selection: a candidate replaces the current best
only when its key is strictly smaller. -/
def anchor_step (k : Nat × Nat → Nat × Nat × Nat) (best : Option (Nat × Nat))
    (p : Nat × Nat) : Option (Nat × Nat) :=
  match best with
  | none => some p
  | some q => if lt3 (k p) (k q) then some p else some q

/-- Modelled from the spec: the Histogram anchor choice (§4.3) — the common
line with the lowest occurrence count, preferring the longest extended
match and then the earliest file-1 position among ties. -/
def choose_anchor {α : Type} [DecidableEq α] (xs ys : List α) : Option (Nat × Nat) :=
  (candidate_pairs xs ys).foldl (anchor_step (key_of xs ys)) none

/-- Modelled from the spec: the Histogram algorithm (§4.3) — pick the best
anchor, extend the match forward and backward across adjacent equal lines,
and recurse on the sub-regions on both sides; with no common line the
region falls back to the Myers model.  The fuel argument bounds the
recursion (§9). -/
def hist_fuel {α : Type} [DecidableEq α] : Nat → List α → List α → List (EditOp α)
  | 0, xs, ys => ses_fuel (xs.length + ys.length) xs ys
  | fuel + 1, xs, ys =>
    match choose_anchor xs ys with
    | none => ses_fuel (xs.length + ys.length) xs ys
    | some (i, j) =>
      let b := ext_back xs ys i j
      let f := ext_fwd xs ys i j
      hist_fuel fuel (xs.take (i - b)) (ys.take (j - b)) ++
        ((xs.drop (i - b)).take (b + 1 + f)).map EditOp.keep ++
        hist_fuel fuel (xs.drop (i + f + 1)) (ys.drop (j + f + 1))

/-- The Histogram model with enough fuel for any input. -/
def histogram_diff {α : Type} [DecidableEq α] (xs ys : List α) : List (EditOp α) :=
  hist_fuel (xs.length + ys.length) xs ys

/-! ### Algorithm dispatch and the diff pipeline -/

/-- Modelled from the spec: the algorithm selector (§4.3/§6). -/
inductive DiffAlg where
  | myers
  | patience
  | histogram
deriving DecidableEq, Repr

/-- Run the selected edit-script algorithm on two class-id sequences. -/
def run_alg {α : Type} [DecidableEq α] : DiffAlg → List α → List α → List (EditOp α)
  | .myers => myers
  | .patience => patience_diff
  | .histogram => histogram_diff

/-- Modelled from the spec: the edit script of two buffers under a policy
(§4.1–§4.3). -/
def diff_script (alg : DiffAlg) (pol : DiffPolicy) (buf1 buf2 : List Char) :
    List (EditOp (List Char)) :=
  run_alg alg (class_seq pol buf1) (class_seq pol buf2)

/-- Modelled from the spec: the compacted Change Hunk list of two buffers
(§4.4); `inter` is the interhunk-joining distance. -/
def change_hunks (alg : DiffAlg) (pol : DiffPolicy) (inter : Nat)
    (buf1 buf2 : List Char) : List XChange :=
  join_hunks inter (to_hunks (diff_script alg pol buf1 buf2))

/-! ### Emission (§4.5)

The Emission Layer walks the non-ignored hunks, groups hunks whose
context ranges would otherwise overlap into one display hunk, extends each
group by `ctxlen` context lines clamped to the file boundaries, and
produces one hunk event (the 1-based extended ranges) followed by the line
events, each line prefixed by its role marker and terminated by a line
feed. -/

/-- Group changes whose extended contexts would overlap: a change starting
within `gap` lines of the previous group joins it. -/
def group_changes_aux (gap : Nat) (cur : List XChange) (last_end : Nat) :
    List XChange → List (List XChange)
  | [] => [cur.reverse]
  | h :: rest =>
    if h.i1 ≤ last_end + gap then
      group_changes_aux gap (h :: cur) (h.i1 + h.chg1) rest
    else cur.reverse :: group_changes_aux gap [h] (h.i1 + h.chg1) rest

/-- Partition a change list into display groups. -/
def group_changes (gap : Nat) : List XChange → List (List XChange)
  | [] => []
  | h :: rest => group_changes_aux gap [h] (h.i1 + h.chg1) rest

/-- Modelled from the spec: emit one display group (§4.5): leading context
(clamped at the start of file), per change its context gap, its deleted
lines and its added lines, then trailing context (clamped at the end of
file).  Returns the 1-based hunk header ranges and the emitted lines. -/
def emit_group (lines1 lines2 : List (List Char)) (ctxlen : Nat) (g : List XChange) :
    (Nat × Nat × Nat × Nat) × List (List Char) :=
  match g with
  | [] => ((0, 0, 0, 0), [])
  | c0 :: _ =>
    let s1 := c0.i1 - ctxlen
    let pre := c0.i1 - s1
    let s2 := c0.i2 - pre
    let r := g.foldl
      (fun (acc : Nat × Nat × List (List Char)) c =>
        let o := acc.1
        let ctxs := ((lines1.drop o).take (c.i1 - o)).map (fun l => ' ' :: l ++ ['\n'])
        let dels := ((lines1.drop c.i1).take c.chg1).map (fun l => '-' :: l ++ ['\n'])
        let inss := ((lines2.drop c.i2).take c.chg2).map (fun l => '+' :: l ++ ['\n'])
        (c.i1 + c.chg1, c.i2 + c.chg2, acc.2.2 ++ ctxs ++ dels ++ inss))
      (s1, s2, [])
    let tail_cnt := min ctxlen (lines1.length - r.1)
    let tails := ((lines1.drop r.1).take tail_cnt).map (fun l => ' ' :: l ++ ['\n'])
    ((s1 + 1, r.1 + tail_cnt - s1, s2 + 1, r.2.1 + tail_cnt - s2), r.2.2 ++ tails)

/-- Modelled from the spec: the event stream of the Emission Layer (§4.5) —
ignored hunks are excluded, the rest are grouped and emitted.  Each event
is a hunk-callback invocation followed by its line-callback payloads. -/
def diff_events (lines1 lines2 : List (List Char)) (ctxlen inter : Nat)
    (hunks : List XChange) : List ((Nat × Nat × Nat × Nat) × List (List Char)) :=
  (group_changes (2 * ctxlen + inter) (hunks.filter (fun h => ¬ h.ignore))).map
    (emit_group lines1 lines2 ctxlen)

/-! ## The command-line front end (`xdiff-cli.c`) -/

/-- The mutable fields of `struct diff_context` in `xdiff-cli.c`. -/
structure DiffCtxState where
  brief : Bool
  first_hunk : Bool
  has_differences : Bool
  current_old_line : Int
  current_new_line : Int
deriving DecidableEq, Repr

/-- Decimal rendering of a line number. -/
def nat_text (n : Nat) : List Char := (Nat.repr n).data

/-- `out_hunk_cb` from `xdiff-cli.c`: record that differences exist; in
brief mode print nothing; otherwise print the `---`/`+++` header before the
first hunk, reset the line counters to the hunk's begins, and print the
`@@` header (the CLI configures no function names, so none are printed). -/
def out_hunk_cb (file1 file2 : List Char) (st : DiffCtxState)
    (old_begin old_nr new_begin new_nr : Nat) : List Char × DiffCtxState :=
  let st := { st with has_differences := true }
  if st.brief then ([], st)
  else
    let hdr :=
      if st.first_hunk then
        "--- ".data ++ file1 ++ "\n+++ ".data ++ file2 ++ "\n".data
      else []
    let st :=
      { st with
        first_hunk := false
        current_old_line := (old_begin : Int)
        current_new_line := (new_begin : Int) }
    (hdr ++ "@@ -".data ++ nat_text old_begin ++ ",".data ++ nat_text old_nr ++
       " +".data ++ nat_text new_begin ++ ",".data ++ nat_text new_nr ++ " @@\n".data,
     st)

/-- The per-call locals of `out_line_cb` that persist across the buffer
loop, together with the context state. -/
structure LineLoopState where
  st : DiffCtxState
  is_deleted : Bool
  line_num : Int
deriving DecidableEq, Repr

/-- The classification step of `out_line_cb`'s buffer loop: a `-` line is a
deletion at the current old line (which then advances), a `+` line an
addition at the current new line (which then advances), a context line
advances both counters, anything else leaves the locals alone. -/
def line_advance (ls : LineLoopState) (c : Char) : LineLoopState :=
  if c = '-' then
    { st := { ls.st with current_old_line := ls.st.current_old_line + 1 },
      is_deleted := true, line_num := ls.st.current_old_line }
  else if c = '+' then
    { st := { ls.st with current_new_line := ls.st.current_new_line + 1 },
      is_deleted := false, line_num := ls.st.current_new_line }
  else if c = ' ' then
    { ls with
      st :=
        { ls.st with
          current_old_line := ls.st.current_old_line + 1
          current_new_line := ls.st.current_new_line + 1 } }
  else ls

/-- The moved check of `out_line_cb`: only when a moved context is present
with detection enabled and the line is a changed line is `is_line_moved`
consulted. -/
def line_annotate (moved : Option MovedContext) (ls : LineLoopState) (c : Char) : Bool :=
  match moved with
  | some mctx =>
    if mctx.mode ≠ .no ∧ (c = '-' ∨ c = '+') then
      is_line_moved mctx ls.line_num ls.is_deleted
    else false
  | none => false

/-- One iteration of the buffer loop of `out_line_cb`: classify the line by
its first byte, advance the line counters, and, when move detection marks
the line as moved, replace its first byte (`-` by `<`, `+` by `>`); every
other byte is written unchanged. -/
def out_line_buf (moved : Option MovedContext) (ls : LineLoopState) (line : List Char) :
    List Char × LineLoopState :=
  match line with
  | [] => (line, ls)
  | c :: rest =>
    let ls1 := line_advance ls c
    ((if line_annotate moved ls1 c then (if c = '-' then '<' else '>') else c) :: rest,
     ls1)

/-- `out_line_cb` from `xdiff-cli.c`: in brief mode print nothing;
otherwise run the buffer loop, threading the per-call locals. -/
def out_line_cb (moved : Option MovedContext) (st : DiffCtxState)
    (bufs : List (List Char)) : List Char × DiffCtxState :=
  if st.brief then ([], st)
  else
    let r := bufs.foldl
      (fun (acc : List Char × LineLoopState) buf =>
        let s := out_line_buf moved acc.2 buf
        (acc.1 ++ s.1, s.2))
      ([], { st := st, is_deleted := false, line_num := 0 })
    (r.1, r.2.st)

/-- Feed the emission event stream through the two CLI callbacks, starting
from the state `main` sets up, and collect everything written to standard
output. -/
def run_callbacks (file1 file2 : List Char) (moved : Option MovedContext)
    (st : DiffCtxState)
    (events : List ((Nat × Nat × Nat × Nat) × List (List Char))) :
    List Char × DiffCtxState :=
  events.foldl
    (fun (acc : List Char × DiffCtxState) ev =>
      let h := out_hunk_cb file1 file2 acc.2 ev.1.1 ev.1.2.1 ev.1.2.2.1 ev.1.2.2.2
      ev.2.foldl
        (fun (acc2 : List Char × DiffCtxState) line =>
          let s := out_line_cb moved acc2.2 [line]
          (acc2.1 ++ s.1, s.2))
        (acc.1 ++ h.1, h.2))
    ([], st)

/-- The options `main` distils from the command line. -/
structure CliOptions where
  brief : Bool
  ctxlen : Nat
  pol : DiffPolicy
  alg : DiffAlg
  moved_mode : MovedMode
  moved_ws : MovedWsMode

/-- The CLI's default option values (`main`'s initializers): 3 context
lines, not brief, no policy flags, Myers, moved mode `plain`, moved
whitespace mode `no`. -/
def default_options : CliOptions :=
  { brief := false, ctxlen := 3, pol := defaultPolicy, alg := .myers,
    moved_mode := .plain, moved_ws := .ws_no }

/-- The diff phase of `main` once both files are read: compute the change
script, run block collection when move detection is enabled, then drive the
emission events through the callbacks (with `interhunkctxlen = 0`).
Returns standard output and the final callback state. -/
def cli_diff (opts : CliOptions) (file1 file2 buf1 buf2 : List Char) :
    List Char × DiffCtxState :=
  let lines1 := split_lines buf1
  let lines2 := split_lines buf2
  let hunks := change_hunks opts.alg opts.pol 0 buf1 buf2
  let moved :=
    if opts.moved_mode ≠ .no then
      some (collect_blocks_from_diff lines1 lines2 hunks
        (moved_context_init opts.moved_mode opts.moved_ws))
    else none
  let events := diff_events lines1 lines2 opts.ctxlen 0 hunks
  run_callbacks file1 file2 moved
    { brief := opts.brief, first_hunk := true, has_differences := false,
      current_old_line := 0, current_new_line := 0 }
    events

/-- The result of reading a file (`read_file` in `xdiff-cli.c`): the buffer
on success, otherwise the OS error reason. -/
inductive ReadResult where
  | ok (buf : List Char)
  | err (reason : List Char)

/-- What one run of `main` produces. -/
structure MainOutcome where
  exit : Nat
  stdout : List Char
  stderr : List Char
  diff_ran : Bool
  collect_ran : Bool
deriving DecidableEq, Repr

/-- The diagnostic `main` prints when a file cannot be read:
`prog: cannot read file 'NAME': REASON`. -/
def read_err_msg (prog name reason : List Char) : List Char :=
  prog ++ ": cannot read file ".data ++ [Char.ofNat 39] ++ name ++ [Char.ofNat 39] ++
    ": ".data ++ reason ++ "\n".data

/-- `main` from `xdiff-cli.c`, from the point where options are parsed:
reject a command line without exactly two file arguments (usage error);
read the two files, surfacing a read error as a diagnostic naming the file
and the OS reason with exit 1 and no diff computed; run block collection
when move detection is enabled; run the diff (an engine failure, modelled
by the `engine_fails` flag, is reported and exits 1); in brief mode report
and exit 1 iff differences were seen, otherwise exit 0 after printing the
diff.  No step is ever retried. -/
def cli_main (opts : CliOptions) (prog : List Char) (nfiles : Nat)
    (file1 file2 : List Char) (r1 r2 : ReadResult) (engine_fails : Bool) :
    MainOutcome :=
  if nfiles ≠ 2 then
    { exit := 1, stdout := [],
      stderr := prog ++ ": exactly two file arguments required\n".data,
      diff_ran := false, collect_ran := false }
  else
    match r1 with
    | .err e =>
      { exit := 1, stdout := [], stderr := read_err_msg prog file1 e,
        diff_ran := false, collect_ran := false }
    | .ok buf1 =>
      match r2 with
      | .err e =>
        { exit := 1, stdout := [], stderr := read_err_msg prog file2 e,
          diff_ran := false, collect_ran := false }
      | .ok buf2 =>
        let collect_ran := opts.moved_mode ≠ .no
        if engine_fails then
          { exit := 1, stdout := [],
            stderr := prog ++ ": diff computation failed\n".data,
            diff_ran := true, collect_ran := collect_ran }
        else
          let r := cli_diff opts file1 file2 buf1 buf2
          if opts.brief then
            if r.2.has_differences then
              { exit := 1,
                stdout := "Files ".data ++ file1 ++ " and ".data ++ file2 ++
                  " differ\n".data,
                stderr := [], diff_ran := true, collect_ran := collect_ran }
            else
              { exit := 0, stdout := [], stderr := [], diff_ran := true,
                collect_ran := collect_ran }
          else
            { exit := 0, stdout := r.1, stderr := [], diff_ran := true,
              collect_ran := collect_ran }

/-! ## The Three-Way Merge Engine, modelled from the specification (§4.6)

Like the diff engine, the merge engine is not part of this repository's
sources; the model below follows §4.6 for the `minimal`/`eager` levels with
no favor mode: both edit scripts are computed against the ancestor, walked
in lockstep over the ancestor's coordinate space, overlapping change
clusters are compared byte-for-byte and either resolved (identical) or
serialized as one conflict block with `marker_size` markers and the
configured labels (the ancestor section appearing in `diff3` style). -/

/-- Modelled from the spec: merge output styles (§4.6 step 5 / §6). -/
inductive MergeStyle where
  | normal
  | diff3
deriving DecidableEq, Repr

/-- Modelled from the spec: the merge parameters used by the claims
(`marker_size`, `style` and the three labels, §6). -/
structure MergeParams where
  marker_size : Nat
  style : MergeStyle
  ancestor_label : List Char
  file1_label : List Char
  file2_label : List Char

/-- Join lines back into a buffer, terminating each with a line feed. -/
def unlines (ls : List (List Char)) : List Char :=
  (ls.map (fun l => l ++ ['\n'])).flatten

/-- A conflict marker line: `marker_size` copies of the marker character,
the label after a space when one is configured, and a line feed. -/
def marker_line (c : Char) (n : Nat) (label : List Char) : List Char :=
  List.replicate n c ++ (if label.isEmpty then [] else ' ' :: label) ++ ['\n']

/-- The state of cluster absorption: the extended ancestor upper bound, the
changes absorbed from each side, and the changes left over. -/
structure Cluster where
  hi : Nat
  used1 : List XChange
  rest1 : List XChange
  used2 : List XChange
  rest2 : List XChange

/-- Absorb into an overlapping cluster every following change (from either
side) that starts no later than the cluster's current upper bound,
extending the bound as changes are absorbed. -/
def absorb_fuel : Nat → Nat → List XChange → List XChange → Cluster
  | 0, hi, h1, h2 => ⟨hi, [], h1, [], h2⟩
  | fuel + 1, hi, h1, h2 =>
    match h1 with
    | c :: r1 =>
      if c.i1 ≤ hi then
        let cl := absorb_fuel fuel (max hi (c.i1 + c.chg1)) r1 h2
        { cl with used1 := c :: cl.used1 }
      else
        match h2 with
        | c2 :: r2 =>
          if c2.i1 ≤ hi then
            let cl := absorb_fuel fuel (max hi (c2.i1 + c2.chg1)) h1 r2
            { cl with used2 := c2 :: cl.used2 }
          else ⟨hi, [], h1, [], h2⟩
        | [] => ⟨hi, [], h1, [], h2⟩
    | [] =>
      match h2 with
      | c2 :: r2 =>
        if c2.i1 ≤ hi then
          let cl := absorb_fuel fuel (max hi (c2.i1 + c2.chg1)) [] r2
          { cl with used2 := c2 :: cl.used2 }
        else ⟨hi, [], [], [], h2⟩
      | [] => ⟨hi, [], [], [], h2⟩

/-- One side's replacement content for the ancestor range `[lo, hi)`: its
changed lines where its script changes the range, the ancestor's lines in
the gaps. -/
def side_content (anc side_lines : List (List Char)) (lo hi : Nat)
    (used : List XChange) : List (List Char) :=
  let r := used.foldl
    (fun (acc : Nat × List (List Char)) c =>
      (c.i1 + c.chg1,
       acc.2 ++ (anc.drop acc.1).take (c.i1 - acc.1) ++ (side_lines.drop c.i2).take c.chg2))
    (lo, [])
  r.2 ++ (anc.drop r.1).take (hi - r.1)

/-- Modelled from the spec: the lockstep walk of the two edit scripts over
the ancestor's coordinate space (§4.6, steps 2–5): a change of one side
alone is applied; overlapping changes form a cluster whose two replacement
contents are compared byte-for-byte — equal content is emitted once,
divergent content becomes one conflict block.  Returns the merged buffer
and the number of conflict blocks. -/
def merge_walk_fuel (anc l1 l2 : List (List Char)) (p : MergeParams) :
    Nat → Nat → List XChange → List XChange → List Char × Nat
  | 0, pos, _, _ => (unlines (anc.drop pos), 0)
  | fuel + 1, pos, h1, h2 =>
    match h1, h2 with
    | [], [] => (unlines (anc.drop pos), 0)
    | c :: r1, [] =>
      let ctxs := (anc.drop pos).take (c.i1 - pos)
      let rep := (l1.drop c.i2).take c.chg2
      let rest := merge_walk_fuel anc l1 l2 p fuel (c.i1 + c.chg1) r1 []
      (unlines ctxs ++ unlines rep ++ rest.1, rest.2)
    | [], c :: r2 =>
      let ctxs := (anc.drop pos).take (c.i1 - pos)
      let rep := (l2.drop c.i2).take c.chg2
      let rest := merge_walk_fuel anc l1 l2 p fuel (c.i1 + c.chg1) [] r2
      (unlines ctxs ++ unlines rep ++ rest.1, rest.2)
    | c1 :: r1, c2 :: r2 =>
      if c1.i1 + c1.chg1 < c2.i1 then
        let ctxs := (anc.drop pos).take (c1.i1 - pos)
        let rep := (l1.drop c1.i2).take c1.chg2
        let rest := merge_walk_fuel anc l1 l2 p fuel (c1.i1 + c1.chg1) r1 (c2 :: r2)
        (unlines ctxs ++ unlines rep ++ rest.1, rest.2)
      else if c2.i1 + c2.chg1 < c1.i1 then
        let ctxs := (anc.drop pos).take (c2.i1 - pos)
        let rep := (l2.drop c2.i2).take c2.chg2
        let rest := merge_walk_fuel anc l1 l2 p fuel (c2.i1 + c2.chg1) (c1 :: r1) r2
        (unlines ctxs ++ unlines rep ++ rest.1, rest.2)
      else
        let lo := min c1.i1 c2.i1
        let hi0 := max (c1.i1 + c1.chg1) (c2.i1 + c2.chg1)
        let cl := absorb_fuel (r1.length + r2.length) hi0 r1 r2
        let content1 := side_content anc l1 lo cl.hi (c1 :: cl.used1)
        let content2 := side_content anc l2 lo cl.hi (c2 :: cl.used2)
        let ctxs := (anc.drop pos).take (lo - pos)
        let rest := merge_walk_fuel anc l1 l2 p fuel cl.hi cl.rest1 cl.rest2
        if content1 = content2 then
          (unlines ctxs ++ unlines content1 ++ rest.1, rest.2)
        else
          let conflict :=
            marker_line '<' p.marker_size p.file1_label ++ unlines content1 ++
              (if p.style = .diff3 then
                marker_line '|' p.marker_size p.ancestor_label ++
                  unlines ((anc.drop lo).take (cl.hi - lo))
              else []) ++
              List.replicate p.marker_size '=' ++ ['\n'] ++ unlines content2 ++
              marker_line '>' p.marker_size p.file2_label
          (unlines ctxs ++ conflict ++ rest.1, rest.2 + 1)

/-- Modelled from the spec: the merge entry point (§6) for the
`minimal`/`eager` levels with no favor mode — compute both edit scripts
against the ancestor with the Myers model and walk them in lockstep.
Returns the merged buffer and the conflict count. -/
def xdl_merge (anc v1 v2 : List Char) (p : MergeParams) : List Char × Nat :=
  let a := split_lines anc
  let l1 := split_lines v1
  let l2 := split_lines v2
  let h1 := to_hunks (myers a l1)
  let h2 := to_hunks (myers a l2)
  merge_walk_fuel a l1 l2 p (h1.length + h2.length + 1) 0 h1 h2

/-- One `--moved` option from `main`'s `getopt` loop: no argument or
`plain`, `blocks`, `zebra`, `dimmed-zebra`, `no` select the mode; any other
argument is rejected (`none`, exit 1). -/
def moved_arg_step (acc : Option MovedMode) (arg : Option (List Char)) :
    Option MovedMode :=
  match acc with
  | none => none
  | some _ =>
    match arg with
    | none => some MovedMode.plain
    | some s =>
      if s = "plain".data then some MovedMode.plain
      else if s = "blocks".data then some MovedMode.blocks
      else if s = "zebra".data then some MovedMode.zebra
      else if s = "dimmed-zebra".data then some MovedMode.dimmed_zebra
      else if s = "no".data then some MovedMode.no
      else none

/-- The `--moved` occurrences of a command line, folded over `main`'s
`MOVED_MODE_PLAIN` initializer; the last occurrence wins. -/
def parse_moved_args (args : List (Option (List Char))) : Option MovedMode :=
  args.foldl moved_arg_step (some MovedMode.plain)

/-! ## Claims -/

/-- C2: diffing `"line1\nline2\nline3\n"` against `"line1\nmodified\nline3\n"`
with the default Myers algorithm produces exactly one Change Hunk whose
1-based old range is (2,1) and new range is (2,1), and emission with
`ctxlen = 3` produces exactly the lines `" line1\n"`, `"-line2\n"`,
`"+modified\n"`, `" line3\n"` in this order, each prefixed by its role
marker. -/
theorem c2_example_end_to_end :
    (change_hunks .myers defaultPolicy 0 "line1\nline2\nline3\n".data
        "line1\nmodified\nline3\n".data).map
      (fun h => (h.i1 + 1, h.chg1, h.i2 + 1, h.chg2)) = [(2, 1, 2, 1)] ∧
    (diff_events (split_lines "line1\nline2\nline3\n".data)
        (split_lines "line1\nmodified\nline3\n".data) 3 0
        (change_hunks .myers defaultPolicy 0 "line1\nline2\nline3\n".data
          "line1\nmodified\nline3\n".data)).map (fun ev => ev.2) =
      [[" line1\n".data, "-line2\n".data, "+modified\n".data, " line3\n".data]] := by
  exact ⟨by decide, by decide⟩

/-- C8: merging ancestor `"a\n"`, variant1 `"b\n"`, variant2 `"c\n"` with
`marker_size = 7` and `diff3` style produces exactly the specified conflict
block and reports one conflict. -/
theorem c8_conflict_marker_structure :
    xdl_merge "a\n".data "b\n".data "c\n".data
      { marker_size := 7, style := .diff3, ancestor_label := "original".data,
        file1_label := "file1".data, file2_label := "file2".data } =
      ("<<<<<<< file1\nb\n||||||| original\na\n=======\nc\n>>>>>>> file2\n".data, 1) := by
  decide

/-- C5: every failure is a non-zero exit with a message: a read error on
either file is reported with the file's name and the OS reason and exits 1
without running the diff; an engine failure is reported naming the failing
operation and exits 1.  Each phase of `cli_main` runs at most once, so no
failed step is retried. -/
theorem c5_error_handling :
    ∀ (opts : CliOptions) (prog file1 file2 e buf1 buf2 : List Char)
      (r2 : ReadResult) (ef : Bool),
      cli_main opts prog 2 file1 file2 (.err e) r2 ef =
        { exit := 1, stdout := [], stderr := read_err_msg prog file1 e,
          diff_ran := false, collect_ran := false } ∧
      cli_main opts prog 2 file1 file2 (.ok buf1) (.err e) ef =
        { exit := 1, stdout := [], stderr := read_err_msg prog file2 e,
          diff_ran := false, collect_ran := false } ∧
      cli_main opts prog 2 file1 file2 (.ok buf1) (.ok buf2) true =
        { exit := 1, stdout := [],
          stderr := prog ++ ": diff computation failed\n".data,
          diff_ran := true, collect_ran := opts.moved_mode ≠ .no } := by
  intro opts prog file1 file2 e buf1 buf2 r2 ef
  refine ⟨rfl, rfl, rfl⟩

/-- C1 counterexample: on two readable files that do differ, a default
(non-brief) run reports the differences on standard output yet exits 0,
not 1. -/
theorem c1_counterexample :
    (cli_diff default_options "file1.txt".data "file2.txt".data
        "line1\nline2\nline3\n".data "line1\nmodified\nline3\n".data).2.has_differences
        = true ∧
    (cli_main default_options "xdiff".data 2 "file1.txt".data "file2.txt".data
        (.ok "line1\nline2\nline3\n".data) (.ok "line1\nmodified\nline3\n".data)
        false).exit = 0 := by
  exact ⟨by decide, by decide⟩

/-- C1, amended: usage errors, read errors and engine failures exit 1; a
completed diff exits 1 only in brief mode and only when differences were
found — a default-mode run exits 0 even when differences are found (the
repository's own `DifferentFiles` test expects exit 0 for a successful diff
of differing files). -/
theorem c1_exit_codes (opts : CliOptions) (prog f1 f2 e b1 b2 : List Char)
    (r1 r2 : ReadResult) (ef : Bool) (n : Nat) :
    (n ≠ 2 → (cli_main opts prog n f1 f2 r1 r2 ef).exit = 1) ∧
    (cli_main opts prog 2 f1 f2 (.err e) r2 ef).exit = 1 ∧
    (cli_main opts prog 2 f1 f2 (.ok b1) (.err e) ef).exit = 1 ∧
    (cli_main opts prog 2 f1 f2 (.ok b1) (.ok b2) true).exit = 1 ∧
    (cli_main opts prog 2 f1 f2 (.ok b1) (.ok b2) false).exit =
      (if opts.brief ∧ (cli_diff opts f1 f2 b1 b2).2.has_differences then 1 else 0) := by
  refine ⟨fun h => by simp [cli_main, h], rfl, rfl, rfl, ?_⟩
  by_cases hb : opts.brief = true
  · by_cases hd : (cli_diff opts f1 f2 b1 b2).2.has_differences = true
    · simp [cli_main, hb, hd]
    · simp [cli_main, hb, hd]
  · simp [cli_main, hb]

/-- Witness for `c1_exit_codes`: the usage-error hypothesis is satisfiable
(three file arguments). -/
theorem c1_exit_codes_witness :
    (cli_main default_options "xdiff".data 3 "a".data "b".data (.ok []) (.ok [])
      false).exit = 1 :=
  (c1_exit_codes default_options "xdiff".data "a".data "b".data [] [] []
    (.ok []) (.ok []) false 3).1 (by decide)

/-- The collection loop of `collect_blocks_from_diff` skips ignored changes,
so the whole computation only depends on the non-ignored changes. -/
theorem collect_phase_filter (recs1 recs2 : List (List Char)) (ws : MovedWsMode) :
    ∀ (changes : List XChange) (acc : List MovedBlock × List MovedBlock),
      collect_phase recs1 recs2 ws changes acc =
        collect_phase recs1 recs2 ws (changes.filter (fun c => ¬ c.ignore)) acc := by
  intro changes
  induction changes with
  | nil => intro acc; rfl
  | cons c rest ih =>
    intro acc
    by_cases hc : c.ignore = true
    · simp [collect_phase, hc, ih]
    · simp [collect_phase, hc, ih]

/-- C7: a change carrying the ignore flag contributes nothing: block
collection produces the same deleted and added blocks as if the ignored
changes were absent (their coordinates are absolute, so later hunks'
bookkeeping is unaffected), and the emission event stream likewise only
depends on the non-ignored hunks. -/
theorem c7_ignored_hunks_excluded :
    (∀ (recs1 recs2 : List (List Char)) (changes : List XChange) (ctx : MovedContext),
      collect_blocks_from_diff recs1 recs2 changes ctx =
        collect_blocks_from_diff recs1 recs2 (changes.filter (fun c => ¬ c.ignore)) ctx) ∧
    (∀ (lines1 lines2 : List (List Char)) (cl inter : Nat) (hunks : List XChange),
      diff_events lines1 lines2 cl inter hunks =
        diff_events lines1 lines2 cl inter (hunks.filter (fun h => ¬ h.ignore))) := by
  constructor
  · intro recs1 recs2 changes ctx
    unfold collect_blocks_from_diff
    rw [collect_phase_filter]
  · intro lines1 lines2 cl inter hunks
    simp [diff_events, List.filter_filter]

/-- A successful `--moved=no` is the only `getopt` step that yields the
`no` mode. -/
theorem moved_arg_step_no (acc : Option MovedMode) (a : Option (List Char)) :
    moved_arg_step acc a = some MovedMode.no → a = some "no".data := by
  intro h
  cases acc with
  | none => simp [moved_arg_step] at h
  | some m =>
    cases a with
    | none => simp [moved_arg_step] at h
    | some s =>
      simp only [moved_arg_step] at h
      split_ifs at h <;> simp_all

/-- A command line parses to the `no` mode only if some `--moved` option
carries the argument `no`. -/
theorem parse_moved_args_no :
    ∀ (args : List (Option (List Char))) (acc : Option MovedMode),
      args.foldl moved_arg_step acc = some MovedMode.no →
        acc = some MovedMode.no ∨ some "no".data ∈ args := by
  intro args
  induction args with
  | nil => intro acc h; exact Or.inl h
  | cons a rest ih =>
    intro acc h
    rcases ih (moved_arg_step acc a) h with h1 | h1
    · exact Or.inr (by rw [moved_arg_step_no acc a h1]; exact List.mem_cons_self _ _)
    · exact Or.inr (List.mem_cons_of_mem _ h1)

/-- C9: moved-block detection is on by default — with no `--moved` option
the mode is `plain`; block collection runs exactly when the mode is not
`no`; parsing yields the `no` mode only when an explicit `--moved=no` was
given; and a default run can carry moved markers in its output. -/
theorem c9_moved_default_enabled :
    default_options.moved_mode = MovedMode.plain ∧
    parse_moved_args [] = some MovedMode.plain ∧
    (∀ (opts : CliOptions) (prog f1 f2 b1 b2 : List Char) (ef : Bool),
      ((cli_main opts prog 2 f1 f2 (.ok b1) (.ok b2) ef).collect_ran = true ↔
        opts.moved_mode ≠ MovedMode.no)) ∧
    (∀ (args : List (Option (List Char))),
      parse_moved_args args = some MovedMode.no → some "no".data ∈ args) ∧
    '<' ∈ (cli_diff default_options "f1".data "f2".data
      "A\nB\nx\n".data "x\nA\nB\n".data).1 := by
  refine ⟨rfl, rfl, ?_, ?_, by decide⟩
  · intro opts prog f1 f2 b1 b2 ef
    cases ef with
    | true => simp [cli_main]
    | false =>
      by_cases hb : opts.brief = true <;>
        by_cases hd : (cli_diff opts f1 f2 b1 b2).2.has_differences = true <;>
          simp [cli_main, hb, hd]
  · intro args h
    rcases parse_moved_args_no args (some MovedMode.plain) h with h1 | h1
    · simp at h1
    · exact h1

/-- Witness for `c9_moved_default_enabled`: an explicit `--moved=no` run. -/
theorem c9_moved_default_enabled_witness :
    some "no".data ∈ [some "no".data] :=
  c9_moved_default_enabled.2.2.2.1 [some "no".data] (by decide)

/-- The relation between a line handed to `out_line_cb` and what the CLI
writes for it: either the bytes are written unchanged, or the line is a
deleted/added line and exactly its first byte is replaced (`-` by `<`, `+`
by `>`). -/
def moved_annotation_of (l out : List Char) : Prop :=
  out = l ∨ (∃ rest, l = '-' :: rest ∧ out = '<' :: rest) ∨
    (∃ rest, l = '+' :: rest ∧ out = '>' :: rest)

/-- The per-buffer step updates the callback state the same way whether or
not move detection is active. -/
theorem out_line_buf_state (moved : Option MovedContext) (ls : LineLoopState)
    (l : List Char) : (out_line_buf moved ls l).2 = (out_line_buf none ls l).2 := by
  cases l with
  | nil => rfl
  | cons c rest => rfl

/-- With move detection off, the per-buffer step writes the line verbatim. -/
theorem out_line_buf_plain (ls : LineLoopState) (l : List Char) :
    (out_line_buf none ls l).1 = l := by
  cases l with
  | nil => rfl
  | cons c rest => rfl

/-- Only a `-` or `+` line is ever annotated. -/
theorem line_annotate_char (moved : Option MovedContext) (ls : LineLoopState)
    (c : Char) : line_annotate moved ls c = true → c = '-' ∨ c = '+' := by
  cases moved with
  | none => intro h; simp [line_annotate] at h
  | some mctx =>
    intro h
    simp only [line_annotate] at h
    split_ifs at h with hcond
    exact hcond.2

/-- The per-buffer step only ever rewrites the first byte of a changed
line. -/
theorem out_line_buf_rel (moved : Option MovedContext) (ls : LineLoopState)
    (l : List Char) : moved_annotation_of l (out_line_buf moved ls l).1 := by
  cases l with
  | nil => exact Or.inl rfl
  | cons c rest =>
    by_cases han : line_annotate moved (line_advance ls c) c = true
    · rcases line_annotate_char _ _ _ han with hc | hc
      · subst hc
        refine Or.inr (Or.inl ⟨rest, rfl, ?_⟩)
        simp [out_line_buf, han]
      · subst hc
        refine Or.inr (Or.inr ⟨rest, rfl, ?_⟩)
        simp [out_line_buf, han]
    · refine Or.inl ?_
      simp [out_line_buf, han]

/-- The buffer loop evolves the callback state identically with and without
move detection. -/
theorem out_line_fold_state (moved : Option MovedContext) :
    ∀ (bufs : List (List Char)) (ls : LineLoopState) (pre pre' : List Char),
      (bufs.foldl
        (fun (acc : List Char × LineLoopState) buf =>
          let s := out_line_buf moved acc.2 buf
          (acc.1 ++ s.1, s.2)) (pre, ls)).2 =
      (bufs.foldl
        (fun (acc : List Char × LineLoopState) buf =>
          let s := out_line_buf none acc.2 buf
          (acc.1 ++ s.1, s.2)) (pre', ls)).2 := by
  intro bufs
  induction bufs with
  | nil => intro ls pre pre'; rfl
  | cons b rest ih =>
    intro ls pre pre'
    simp only [List.foldl_cons]
    rw [out_line_buf_state]
    exact ih _ _ _

/-- Without move detection the buffer loop writes the buffers verbatim. -/
theorem out_line_fold_plain :
    ∀ (bufs : List (List Char)) (ls : LineLoopState) (pre : List Char),
      (bufs.foldl
        (fun (acc : List Char × LineLoopState) buf =>
          let s := out_line_buf none acc.2 buf
          (acc.1 ++ s.1, s.2)) (pre, ls)).1 = pre ++ bufs.flatten := by
  intro bufs
  induction bufs with
  | nil => intro ls pre; simp
  | cons b rest ih =>
    intro ls pre
    simp only [List.foldl_cons, List.flatten_cons]
    rw [out_line_buf_plain, ih, List.append_assoc]

/-- The buffer loop's output is the buffers with at most their first bytes
annotated. -/
theorem out_line_fold_rel (moved : Option MovedContext) :
    ∀ (bufs : List (List Char)) (ls : LineLoopState) (pre : List Char),
      ∃ outs : List (List Char),
        List.Forall₂ moved_annotation_of bufs outs ∧
        (bufs.foldl
          (fun (acc : List Char × LineLoopState) buf =>
            let s := out_line_buf moved acc.2 buf
            (acc.1 ++ s.1, s.2)) (pre, ls)).1 = pre ++ outs.flatten := by
  intro bufs
  induction bufs with
  | nil => intro ls pre; exact ⟨[], List.Forall₂.nil, by simp⟩
  | cons b rest ih =>
    intro ls pre
    obtain ⟨outs, hrel, hout⟩ := ih (out_line_buf moved ls b).2 (pre ++ (out_line_buf moved ls b).1)
    refine ⟨(out_line_buf moved ls b).1 :: outs,
      List.Forall₂.cons (out_line_buf_rel moved ls b) hrel, ?_⟩
    simp only [List.foldl_cons, List.flatten_cons]
    rw [hout, List.append_assoc]

/-- C4: move detection never alters the diff output beyond annotation — the
line callback's state evolves exactly as without move detection (the query
functions are pure readers of the moved context, which is never written
after collection), the unannotated callback writes the engine's bytes
verbatim, and the annotated callback writes the same bytes except that a
matched changed line has exactly its first byte replaced, `-` by `<` and
`+` by `>`. -/
theorem c4_moved_detection_frame :
    ∀ (moved : Option MovedContext) (st : DiffCtxState) (bufs : List (List Char)),
      (out_line_cb moved st bufs).2 = (out_line_cb none st bufs).2 ∧
      (out_line_cb none st bufs).1 = (if st.brief then [] else bufs.flatten) ∧
      ∃ outs : List (List Char),
        List.Forall₂ moved_annotation_of bufs outs ∧
        (out_line_cb moved st bufs).1 = (if st.brief then [] else outs.flatten) := by
  intro moved st bufs
  by_cases hbr : st.brief = true
  · refine ⟨by simp [out_line_cb, hbr], by simp [out_line_cb, hbr], bufs, ?_, ?_⟩
    · exact List.forall₂_same.mpr (fun x _ => Or.inl rfl)
    · simp [out_line_cb, hbr]
  · obtain ⟨outs, hrel, hout⟩ :=
      out_line_fold_rel moved bufs { st := st, is_deleted := false, line_num := 0 } []
    refine ⟨?_, ?_, outs, hrel, ?_⟩
    · simp only [out_line_cb, hbr, Bool.false_eq_true, if_false]
      rw [out_line_fold_state]
    · simp only [out_line_cb, hbr, Bool.false_eq_true, if_false]
      rw [out_line_fold_plain]
      simp
    · simp only [out_line_cb, hbr, Bool.false_eq_true, if_false]
      rw [hout]
      simp

/-! ## Idempotence of the three algorithms (for C6) -/

section Idempotence

variable {α : Type} [DecidableEq α]

/-- The Myers model keeps every line when diffing a sequence against
itself, as long as the fuel covers the length. -/
theorem ses_fuel_self :
    ∀ (f : Nat) (xs : List α), xs.length ≤ f →
      ses_fuel f xs xs = xs.map EditOp.keep := by
  intro f
  induction f with
  | zero =>
    intro xs h
    have : xs = [] := List.eq_nil_of_length_eq_zero (Nat.le_zero.mp h)
    subst this
    rfl
  | succ f ih =>
    intro xs h
    cases xs with
    | nil => rfl
    | cons x rest =>
      have hr := ih rest (by simpa using Nat.succ_le_succ_iff.mp h)
      simp [ses_fuel, hr]

/-- `myers` on equal sequences is the all-keep script. -/
theorem myers_self (xs : List α) : myers xs xs = xs.map EditOp.keep :=
  ses_fuel_self _ xs (by omega)

/-- A member occurs positively often. -/
theorem occ_pos_of_mem {v : α} {xs : List α} (h : v ∈ xs) : 0 < occ v xs := by
  have : v ∈ xs.filter (fun x => x = v) := List.mem_filter.mpr ⟨h, by simp⟩
  exact List.length_pos.mpr (List.ne_nil_of_mem this)

omit [DecidableEq α] in
/-- The element at an index is a member. -/
theorem mem_of_get?_eq_some {v : α} {xs : List α} {i : Nat}
    (h : xs.get? i = some v) : v ∈ xs :=
  List.get?_mem h

/-- The occurrence count of the head. -/
theorem occ_cons (x v : α) (xs : List α) :
    occ v (x :: xs) = (if x = v then 1 else 0) + occ v xs := by
  by_cases h : x = v <;> simp [occ, List.filter_cons, h, Nat.add_comm]

/-- A value occurring exactly once is first found at the index where it
occurs. -/
theorem idx_of_eq_of_occ_one :
    ∀ (xs : List α) (v : α) (i : Nat), xs.get? i = some v → occ v xs = 1 →
      idx_of v xs = i := by
  intro xs
  induction xs with
  | nil => intro v i h _; simp at h
  | cons x rest ih =>
    intro v i h hocc
    cases i with
    | zero =>
      simp only [List.get?] at h
      have : x = v := by injection h
      simp [idx_of, this]
    | succ i =>
      simp only [List.get?] at h
      have hvmem : v ∈ rest := mem_of_get?_eq_some h
      have hx : ¬ x = v := by
        intro hx
        rw [occ_cons, if_pos hx] at hocc
        have := occ_pos_of_mem hvmem
        omega
      have hrest : occ v rest = 1 := by
        rw [occ_cons, if_neg hx] at hocc
        omega
      simp [idx_of, hx, ih v i h hrest]

/-- On equal sequences every unique pair is diagonal and in range. -/
theorem unique_pairs_self {p : Nat × Nat} {xs : List α}
    (h : p ∈ unique_pairs xs xs) : p.2 = p.1 ∧ p.1 < xs.length := by
  obtain ⟨⟨qi, qv⟩, hq, hcond⟩ := List.mem_filterMap.mp h
  simp only at hcond
  split_ifs at hcond with hc
  · have hp : p = (qi, idx_of qv xs) := by
      have := Option.some.inj hcond
      exact this.symm
    have hgetE : xs[qi]? = some qv := List.mk_mem_enum_iff_getElem?.mp hq
    have hget : xs.get? qi = some qv := by rw [List.get?_eq_getElem?]; exact hgetE
    have hlt : qi < xs.length := by
      rcases List.getElem?_eq_some.mp hgetE with ⟨hl, _⟩
      exact hl
    subst hp
    exact ⟨idx_of_eq_of_occ_one xs qv qi hget hc.1, hlt⟩

/-- The longest-increasing-subsequence step only returns pairs of its
input. -/
theorem lis_from_sub :
    ∀ (l : List (Nat × Nat)) (b : Nat) (p : Nat × Nat), p ∈ lis_from b l → p ∈ l := by
  intro l
  induction l with
  | nil => intro b p h; simp [lis_from] at h
  | cons q ps ih =>
    intro b p h
    simp only [lis_from] at h
    split_ifs at h with h1 h2
    · exact List.mem_cons_of_mem _ (ih _ _ h)
    · rcases List.mem_cons.mp h with h3 | h3
      · exact h3 ▸ List.mem_cons_self _ _
      · exact List.mem_cons_of_mem _ (ih _ _ h3)
    · exact List.mem_cons_of_mem _ (ih _ _ h)

omit [DecidableEq α] in
/-- Splitting a list at an in-range index into prefix, element and
suffix. -/
theorem take_one_drop_eq {xs : List α} {i : Nat} (h : i < xs.length) :
    xs.take i ++ ((xs.drop i).take 1 ++ xs.drop (i + 1)) = xs := by
  have hdrop : xs.drop i = xs[i] :: xs.drop (i + 1) := List.drop_eq_getElem_cons h
  rw [hdrop]
  simp only [List.take_succ_cons, List.take_zero, List.singleton_append]
  rw [← hdrop, List.take_append_drop]

/-- The Patience model keeps every line when diffing a sequence against
itself, for any fuel. -/
theorem patience_fuel_self :
    ∀ (f : Nat) (xs : List α), patience_fuel f xs xs = xs.map EditOp.keep := by
  intro f
  induction f with
  | zero => intro xs; exact ses_fuel_self _ xs (by omega)
  | succ f ih =>
    intro xs
    simp only [patience_fuel]
    cases hl : lis_from 0 (unique_pairs xs xs) with
    | nil => exact ses_fuel_self _ xs (by omega)
    | cons p rest =>
      obtain ⟨hdiag, hlt⟩ :=
        unique_pairs_self (lis_from_sub _ _ _ (hl ▸ List.mem_cons_self p rest))
      obtain ⟨i, j⟩ := p
      simp only at hdiag hlt
      subst hdiag
      show patience_fuel f (xs.take j) (xs.take j) ++
          ((xs.drop j).take 1).map EditOp.keep ++
          patience_fuel f (xs.drop (j + 1)) (xs.drop (j + 1)) = xs.map EditOp.keep
      rw [ih, ih, List.append_assoc, ← List.map_append, ← List.map_append,
        take_one_drop_eq hlt]

/-- `patience_diff` on equal sequences is the all-keep script. -/
theorem patience_self (xs : List α) : patience_diff xs xs = xs.map EditOp.keep :=
  patience_fuel_self _ xs

/-! ### Histogram idempotence -/

/-- The strict key comparison in propositional form. -/
theorem lt3_iff (a b : Nat × Nat × Nat) :
    lt3 a b = true ↔
      (a.1 < b.1 ∨ (a.1 = b.1 ∧ (a.2.1 < b.2.1 ∨ (a.2.1 = b.2.1 ∧ a.2.2 < b.2.2)))) := by
  simp [lt3]

/-- The key comparison is irreflexive. -/
theorem lt3_irrefl (a : Nat × Nat × Nat) : ¬ lt3 a a = true := by
  obtain ⟨a1, a2, a3⟩ := a
  simp [lt3_iff]

/-- The key comparison is transitive. -/
theorem lt3_trans {a b c : Nat × Nat × Nat} (h1 : lt3 a b = true)
    (h2 : lt3 b c = true) : lt3 a c = true := by
  obtain ⟨a1, a2, a3⟩ := a
  obtain ⟨b1, b2, b3⟩ := b
  obtain ⟨c1, c2, c3⟩ := c
  simp only [lt3_iff] at h1 h2 ⊢
  omega

/-- The key comparison is negatively transitive. -/
theorem lt3_neg_trans {a c : Nat × Nat × Nat} (b : Nat × Nat × Nat)
    (h : lt3 a c = true) : lt3 a b = true ∨ lt3 b c = true := by
  obtain ⟨a1, a2, a3⟩ := a
  obtain ⟨b1, b2, b3⟩ := b
  obtain ⟨c1, c2, c3⟩ := c
  simp only [lt3_iff] at h ⊢
  omega

/-- The selection fold started from a candidate returns a minimal element. -/
theorem anchor_fold_some (k : Nat × Nat → Nat × Nat × Nat) :
    ∀ (l : List (Nat × Nat)) (q : Nat × Nat),
      ∃ p, l.foldl (anchor_step k) (some q) = some p ∧ (p = q ∨ p ∈ l) ∧
        ¬ lt3 (k q) (k p) = true ∧ ∀ r ∈ l, ¬ lt3 (k r) (k p) = true := by
  intro l
  induction l with
  | nil =>
    intro q
    exact ⟨q, rfl, Or.inl rfl, lt3_irrefl _, by simp⟩
  | cons r0 rest ih =>
    intro q
    by_cases hlt : lt3 (k r0) (k q) = true
    · obtain ⟨p, hfold, hmem, hqp, hall⟩ := ih r0
      refine ⟨p, ?_, ?_, ?_, ?_⟩
      · simpa [anchor_step, hlt] using hfold
      · rcases hmem with h | h
        · exact Or.inr (h ▸ List.mem_cons_self _ _)
        · exact Or.inr (List.mem_cons_of_mem _ h)
      · intro hqp2
        exact hqp (lt3_trans hlt hqp2)
      · intro r hr
        rcases List.mem_cons.mp hr with h | h
        · exact h ▸ hqp
        · exact hall r h
    · obtain ⟨p, hfold, hmem, hqp, hall⟩ := ih q
      refine ⟨p, ?_, ?_, hqp, ?_⟩
      · simpa [anchor_step, hlt] using hfold
      · rcases hmem with h | h
        · exact Or.inl h
        · exact Or.inr (List.mem_cons_of_mem _ h)
      · intro r hr
        rcases List.mem_cons.mp hr with h | h
        · subst h
          intro hr0p
          rcases lt3_neg_trans (k q) hr0p with h2 | h2
          · exact hlt h2
          · exact hqp h2
        · exact hall r h

/-- The chosen anchor is a candidate whose key no candidate beats; with no
candidates there is no anchor. -/
theorem choose_anchor_cases (xs ys : List α) :
    (choose_anchor xs ys = none ∧ candidate_pairs xs ys = []) ∨
      ∃ p, choose_anchor xs ys = some p ∧ p ∈ candidate_pairs xs ys ∧
        ∀ r ∈ candidate_pairs xs ys, ¬ lt3 (key_of xs ys r) (key_of xs ys p) = true := by
  cases hcp : candidate_pairs xs ys with
  | nil => exact Or.inl ⟨by simp [choose_anchor, hcp], rfl⟩
  | cons r0 rest =>
    obtain ⟨p, hfold, hmem, hqp, hall⟩ := anchor_fold_some (key_of xs ys) rest r0
    refine Or.inr ⟨p, ?_, ?_, ?_⟩
    · simp only [choose_anchor, hcp, List.foldl_cons]
      simpa [anchor_step] using hfold
    · rcases hmem with h | h
      · exact h ▸ List.mem_cons_self _ _
      · exact List.mem_cons_of_mem _ h
    · intro r hr
      rcases List.mem_cons.mp hr with h | h
      · exact h ▸ hqp
      · exact hall r h

/-- A candidate pair designates equal lines of the two sequences. -/
theorem candidate_pairs_mem {xs ys : List α} {p : Nat × Nat}
    (h : p ∈ candidate_pairs xs ys) :
    ∃ v, xs.get? p.1 = some v ∧ ys.get? p.2 = some v := by
  obtain ⟨⟨qi, qv⟩, hq, hp⟩ := List.mem_flatMap.mp h
  obtain ⟨⟨ri, rv⟩, hr, hcond⟩ := List.mem_filterMap.mp hp
  simp only at hcond
  split_ifs at hcond with hvv
  have hpq : p = (qi, ri) := (Option.some.inj hcond).symm
  refine ⟨qv, ?_, ?_⟩
  · rw [hpq, List.get?_eq_getElem?]
    exact List.mk_mem_enum_iff_getElem?.mp hq
  · rw [hpq, List.get?_eq_getElem?]
    have := List.mk_mem_enum_iff_getElem?.mp hr
    rw [hvv] at this
    exact this

/-- Equal lines at two positions give a candidate pair. -/
theorem candidate_pairs_intro {xs ys : List α} {i j : Nat} {v : α}
    (h1 : xs.get? i = some v) (h2 : ys.get? j = some v) :
    (i, j) ∈ candidate_pairs xs ys := by
  refine List.mem_flatMap.mpr ⟨(i, v), ?_, ?_⟩
  · exact List.mk_mem_enum_iff_getElem?.mpr (by rw [← List.get?_eq_getElem?]; exact h1)
  · refine List.mem_filterMap.mpr ⟨(j, v), ?_, ?_⟩
    · exact List.mk_mem_enum_iff_getElem?.mpr (by rw [← List.get?_eq_getElem?]; exact h2)
    · simp

/-- The backward extension never runs past either start. -/
theorem ext_back_le (xs ys : List α) :
    ∀ i j, ext_back xs ys i j ≤ i ∧ ext_back xs ys i j ≤ j := by
  intro i
  induction i with
  | zero => intro j; cases j <;> simp [ext_back]
  | succ i ih =>
    intro j
    cases j with
    | zero => simp [ext_back]
    | succ j =>
      simp only [ext_back]
      cases hx : xs.get? i with
      | none => simp
      | some a =>
        cases hy : ys.get? j with
        | none => simp
        | some b =>
          by_cases hab : a = b
          · have := ih j
            simp [hab]
            omega
          · simp [hab]

/-- On equal sequences the backward extension from the diagonal reaches the
start. -/
theorem ext_back_self (xs : List α) :
    ∀ i, i ≤ xs.length → ext_back xs xs i i = i := by
  intro i
  induction i with
  | zero => intro _; rfl
  | succ i ih =>
    intro h
    have hi : i < xs.length := by omega
    simp [ext_back, List.get?_eq_getElem?, List.getElem?_eq_getElem hi,
      ih (by omega : i ≤ xs.length)]

/-- The forward extension never runs past the end of the first sequence. -/
theorem ext_fwd_aux_le_left (xs ys : List α) :
    ∀ f i j, ext_fwd_aux xs ys f i j ≤ xs.length - 1 - i := by
  intro f
  induction f with
  | zero => intro i j; simp [ext_fwd_aux]
  | succ f ih =>
    intro i j
    simp only [ext_fwd_aux]
    cases hx : xs.get? (i + 1) with
    | none => simp
    | some a =>
      cases hy : ys.get? (j + 1) with
      | none => simp
      | some b =>
        by_cases hab : a = b
        · have hi : i + 1 < xs.length := by
            rw [List.get?_eq_getElem?] at hx
            rcases List.getElem?_eq_some.mp hx with ⟨hl, _⟩
            exact hl
          have := ih (i + 1) (j + 1)
          simp [hab]
          omega
        · simp [hab]

/-- The forward extension never runs past the end of the second sequence. -/
theorem ext_fwd_aux_le_right (xs ys : List α) :
    ∀ f i j, ext_fwd_aux xs ys f i j ≤ ys.length - 1 - j := by
  intro f
  induction f with
  | zero => intro i j; simp [ext_fwd_aux]
  | succ f ih =>
    intro i j
    simp only [ext_fwd_aux]
    cases hx : xs.get? (i + 1) with
    | none => simp
    | some a =>
      cases hy : ys.get? (j + 1) with
      | none => simp
      | some b =>
        by_cases hab : a = b
        · have hj : j + 1 < ys.length := by
            rw [List.get?_eq_getElem?] at hy
            rcases List.getElem?_eq_some.mp hy with ⟨hl, _⟩
            exact hl
          have := ih (i + 1) (j + 1)
          simp [hab]
          omega
        · simp [hab]

/-- On equal sequences the forward extension from the diagonal reaches the
end, given sufficient fuel. -/
theorem ext_fwd_aux_self (xs : List α) :
    ∀ f i, i < xs.length → xs.length ≤ i + f + 1 →
      ext_fwd_aux xs xs f i i = xs.length - 1 - i := by
  intro f
  induction f with
  | zero =>
    intro i h1 h2
    simp only [ext_fwd_aux]
    omega
  | succ f ih =>
    intro i h1 h2
    by_cases hi : i + 1 < xs.length
    · have hrec := ih (i + 1) hi (by omega)
      simp [ext_fwd_aux, List.get?_eq_getElem?, List.getElem?_eq_getElem hi, hrec]
      omega
    · have hnone : xs.get? (i + 1) = none := by
        rw [List.get?_eq_getElem?]
        exact List.getElem?_eq_none (by omega)
      simp only [ext_fwd_aux, hnone]
      omega

/-- On equal sequences the diagonal forward extension. -/
theorem ext_fwd_self (xs : List α) {i : Nat} (h : i < xs.length) :
    ext_fwd xs xs i i = xs.length - 1 - i :=
  ext_fwd_aux_self xs xs.length i h (by omega)

/-- The Histogram model keeps every line when diffing a sequence against
itself, for any fuel. -/
theorem hist_fuel_self :
    ∀ (f : Nat) (xs : List α), hist_fuel f xs xs = xs.map EditOp.keep := by
  intro f
  induction f with
  | zero => intro xs; exact ses_fuel_self _ xs (by omega)
  | succ f ih =>
    intro xs
    rcases choose_anchor_cases xs xs with ⟨hnone, _⟩ | ⟨⟨i, j⟩, hsome, hmem, hmin⟩
    · simp only [hist_fuel, hnone]
      exact ses_fuel_self _ xs (by omega)
    · obtain ⟨v, hgi, hgj⟩ := candidate_pairs_mem hmem
      have hi : i < xs.length := by
        rw [List.get?_eq_getElem?] at hgi
        rcases List.getElem?_eq_some.mp hgi with ⟨hl, _⟩
        exact hl
      have hj : j < xs.length := by
        rw [List.get?_eq_getElem?] at hgj
        rcases List.getElem?_eq_some.mp hgj with ⟨hl, _⟩
        exact hl
      have hii : (i, i) ∈ candidate_pairs xs xs := candidate_pairs_intro hgi hgi
      have hnot := hmin (i, i) hii
      have hEii : ext_len xs xs i i = xs.length := by
        unfold ext_len
        rw [ext_back_self xs i (by omega), ext_fwd_self xs hi]
        omega
      have hE : xs.length ≤ ext_len xs xs i j := by
        by_contra hcon
        apply hnot
        apply (lt3_iff _ _).mpr
        simp only [key_of]
        right
        refine ⟨trivial, Or.inl ?_⟩
        rw [hEii]
        omega
      have hij : i = j := by
        have hb := ext_back_le xs xs i j
        have hf1 := ext_fwd_aux_le_left xs xs xs.length i j
        have hf2 := ext_fwd_aux_le_right xs xs xs.length i j
        unfold ext_len ext_fwd at hE
        omega
      subst hij
      have hback : ext_back xs xs i i = i := ext_back_self xs i (by omega)
      have hfwd : ext_fwd xs xs i i = xs.length - 1 - i := ext_fwd_self xs hi
      simp only [hist_fuel, hsome, hback, hfwd]
      have h1 : i - i = 0 := by omega
      have h2 : i + 1 + (xs.length - 1 - i) = xs.length := by omega
      have h3 : i + (xs.length - 1 - i) + 1 = xs.length := by omega
      rw [h1, h3]
      have h4 : i + 1 + (xs.length - 1 - i) = xs.length := h2
      simp only [List.take_zero, List.drop_zero, List.drop_length, ih]
      have h5 : (xs.take (i + 1 + (xs.length - 1 - i))).map EditOp.keep
          = xs.map EditOp.keep := by rw [h4, List.take_length]
      rw [show i + 1 + (xs.length - 1 - i) = xs.length from h4, List.take_length]
      simp

/-- `histogram_diff` on equal sequences is the all-keep script. -/
theorem histogram_self (xs : List α) : histogram_diff xs xs = xs.map EditOp.keep :=
  hist_fuel_self _ xs

/-- Every algorithm keeps every line on equal class sequences. -/
theorem run_alg_self (alg : DiffAlg) (xs : List α) :
    run_alg alg xs xs = xs.map EditOp.keep := by
  cases alg with
  | myers => exact myers_self xs
  | patience => exact patience_self xs
  | histogram => exact histogram_self xs

omit [DecidableEq α] in
/-- The compactor produces no hunks from an all-keep script. -/
theorem to_hunks_fuel_keeps :
    ∀ (f : Nat) (xs : List α) (o n : Nat),
      to_hunks_fuel f (xs.map EditOp.keep) o n = [] := by
  intro f
  induction f with
  | zero => intro xs o n; rfl
  | succ f ih =>
    intro xs o n
    cases xs with
    | nil => rfl
    | cons x rest => exact ih rest (o + 1) (n + 1)

/-- Diffing a buffer against itself yields no Change Hunks, for every
algorithm, policy and interhunk distance. -/
theorem change_hunks_self (alg : DiffAlg) (pol : DiffPolicy) (inter : Nat)
    (buf : List Char) : change_hunks alg pol inter buf buf = [] := by
  unfold change_hunks diff_script
  rw [run_alg_self, to_hunks, to_hunks_fuel_keeps]
  rfl

end Idempotence

/-- C6: diffing any buffer against an identical copy of itself yields an
empty Change Hunk list for every algorithm and every whitespace policy; at
the CLI no hunk or line event is emitted, the output is empty, no
difference is recorded, and the exit status is 0 (in brief and normal mode
alike). -/
theorem c6_self_diff_empty (pol : DiffPolicy) (alg : DiffAlg) (inter : Nat)
    (buf : List Char) (opts : CliOptions) (prog f1 f2 : List Char) :
    change_hunks alg pol inter buf buf = [] ∧
    diff_events (split_lines buf) (split_lines buf) opts.ctxlen 0
      (change_hunks opts.alg opts.pol 0 buf buf) = [] ∧
    (cli_diff opts f1 f2 buf buf).1 = [] ∧
    (cli_diff opts f1 f2 buf buf).2.has_differences = false ∧
    (cli_main opts prog 2 f1 f2 (.ok buf) (.ok buf) false).exit = 0 := by
  have hev : diff_events (split_lines buf) (split_lines buf) opts.ctxlen 0
      (change_hunks opts.alg opts.pol 0 buf buf) = [] := by
    rw [change_hunks_self]
    rfl
  have hdiff : cli_diff opts f1 f2 buf buf =
      ([], { brief := opts.brief, first_hunk := true, has_differences := false,
             current_old_line := 0, current_new_line := 0 }) := by
    unfold cli_diff
    simp only [hev]
    rfl
  refine ⟨change_hunks_self alg pol inter buf, hev, by rw [hdiff], by rw [hdiff], ?_⟩
  by_cases hb : opts.brief = true <;>
    simp [cli_main, hb, hdiff]

/-! ## The moved-block matching invariants (for C3 and C10) -/

/-- The immutable fields of a block: start line, end line, hash, side. -/
def core (b : MovedBlock) : Nat × Nat × Nat × Bool :=
  (b.start_line, b.end_line, b.hash, b.is_deleted)

/-- Everything but the zebra index. -/
def sig (b : MovedBlock) : (Nat × Nat × Nat × Bool) × Bool × Int :=
  (core b, b.matched, b.match_line)

/-- Number of matched blocks pointing at the line `v`. -/
def m_cnt (v : Int) (l : List MovedBlock) : Nat :=
  (l.filter (fun b => b.matched ∧ b.match_line = v)).length

/-- The mutual pairing relation the matching phase establishes between a
deleted and an added block. -/
def paired (d a : MovedBlock) : Prop :=
  a.hash = d.hash ∧ a.match_line = (d.start_line : Int) ∧
    d.match_line = (a.start_line : Int)

/-- Membership in the collected deleted blocks. -/
theorem collect_phase_mem_dels (recs1 recs2 : List (List Char)) (ws : MovedWsMode) :
    ∀ (changes : List XChange) (acc : List MovedBlock × List MovedBlock)
      (b : MovedBlock),
      b ∈ (collect_phase recs1 recs2 ws changes acc).1 ↔
        b ∈ acc.1 ∨ ∃ c ∈ changes, c.ignore = false ∧ 0 < c.chg1 ∧
          b = moved_block_alloc (c.i1 + 1) (c.i1 + c.chg1)
                (compute_block_hash recs1 c.i1 c.chg1 ws) true := by
  intro changes
  induction changes with
  | nil => intro acc b; simp [collect_phase]
  | cons c rest ih =>
    intro acc b
    by_cases hig : c.ignore = true
    · rw [show collect_phase recs1 recs2 ws (c :: rest) acc
          = collect_phase recs1 recs2 ws rest acc by simp [collect_phase, hig]]
      rw [ih]
      constructor
      · rintro (h | ⟨c2, hc2, h⟩)
        · exact Or.inl h
        · exact Or.inr ⟨c2, List.mem_cons_of_mem _ hc2, h⟩
      · rintro (h | ⟨c2, hc2, hi2, h⟩)
        · exact Or.inl h
        · rcases List.mem_cons.mp hc2 with h2 | h2
          · subst h2; rw [hig] at hi2; cases hi2
          · exact Or.inr ⟨c2, h2, hi2, h⟩
    · have hig' : c.ignore = false := by
        cases h : c.ignore
        · rfl
        · exact absurd h hig
      rw [show collect_phase recs1 recs2 ws (c :: rest) acc
          = collect_phase recs1 recs2 ws rest
              ((if 0 < c.chg1 then
                  moved_block_alloc (c.i1 + 1) (c.i1 + c.chg1)
                    (compute_block_hash recs1 c.i1 c.chg1 ws) true :: acc.1
                else acc.1),
               (if 0 < c.chg2 then
                  moved_block_alloc (c.i2 + 1) (c.i2 + c.chg2)
                    (compute_block_hash recs2 c.i2 c.chg2 ws) false :: acc.2
                else acc.2)) by simp [collect_phase, hig]]
      rw [ih]
      by_cases hchg : 0 < c.chg1
      · simp only [if_pos hchg, List.mem_cons]
        constructor
        · rintro ((h | h) | ⟨c2, hc2, h⟩)
          · exact Or.inr ⟨c, Or.inl rfl, hig', hchg, h⟩
          · exact Or.inl h
          · exact Or.inr ⟨c2, Or.inr hc2, h⟩
        · rintro (h | ⟨c2, hc2, hi2, hch2, h⟩)
          · exact Or.inl (Or.inr h)
          · rcases hc2 with h2 | h2
            · subst h2; exact Or.inl (Or.inl h)
            · exact Or.inr ⟨c2, h2, hi2, hch2, h⟩
      · simp only [if_neg hchg]
        constructor
        · rintro (h | ⟨c2, hc2, h⟩)
          · exact Or.inl h
          · exact Or.inr ⟨c2, List.mem_cons_of_mem _ hc2, h⟩
        · rintro (h | ⟨c2, hc2, hi2, hch2, h⟩)
          · exact Or.inl h
          · rcases List.mem_cons.mp hc2 with h2 | h2
            · subst h2; exact absurd hch2 hchg
            · exact Or.inr ⟨c2, h2, hi2, hch2, h⟩

/-- Membership in the collected added blocks. -/
theorem collect_phase_mem_adds (recs1 recs2 : List (List Char)) (ws : MovedWsMode) :
    ∀ (changes : List XChange) (acc : List MovedBlock × List MovedBlock)
      (b : MovedBlock),
      b ∈ (collect_phase recs1 recs2 ws changes acc).2 ↔
        b ∈ acc.2 ∨ ∃ c ∈ changes, c.ignore = false ∧ 0 < c.chg2 ∧
          b = moved_block_alloc (c.i2 + 1) (c.i2 + c.chg2)
                (compute_block_hash recs2 c.i2 c.chg2 ws) false := by
  intro changes
  induction changes with
  | nil => intro acc b; simp [collect_phase]
  | cons c rest ih =>
    intro acc b
    by_cases hig : c.ignore = true
    · rw [show collect_phase recs1 recs2 ws (c :: rest) acc
          = collect_phase recs1 recs2 ws rest acc by simp [collect_phase, hig]]
      rw [ih]
      constructor
      · rintro (h | ⟨c2, hc2, h⟩)
        · exact Or.inl h
        · exact Or.inr ⟨c2, List.mem_cons_of_mem _ hc2, h⟩
      · rintro (h | ⟨c2, hc2, hi2, h⟩)
        · exact Or.inl h
        · rcases List.mem_cons.mp hc2 with h2 | h2
          · subst h2; rw [hig] at hi2; cases hi2
          · exact Or.inr ⟨c2, h2, hi2, h⟩
    · have hig' : c.ignore = false := by
        cases h : c.ignore
        · rfl
        · exact absurd h hig
      rw [show collect_phase recs1 recs2 ws (c :: rest) acc
          = collect_phase recs1 recs2 ws rest
              ((if 0 < c.chg1 then
                  moved_block_alloc (c.i1 + 1) (c.i1 + c.chg1)
                    (compute_block_hash recs1 c.i1 c.chg1 ws) true :: acc.1
                else acc.1),
               (if 0 < c.chg2 then
                  moved_block_alloc (c.i2 + 1) (c.i2 + c.chg2)
                    (compute_block_hash recs2 c.i2 c.chg2 ws) false :: acc.2
                else acc.2)) by simp [collect_phase, hig]]
      rw [ih]
      by_cases hchg : 0 < c.chg2
      · simp only [if_pos hchg, List.mem_cons]
        constructor
        · rintro ((h | h) | ⟨c2, hc2, h⟩)
          · exact Or.inr ⟨c, Or.inl rfl, hig', hchg, h⟩
          · exact Or.inl h
          · exact Or.inr ⟨c2, Or.inr hc2, h⟩
        · rintro (h | ⟨c2, hc2, hi2, hch2, h⟩)
          · exact Or.inl (Or.inr h)
          · rcases hc2 with h2 | h2
            · subst h2; exact Or.inl (Or.inl h)
            · exact Or.inr ⟨c2, h2, hi2, hch2, h⟩
      · simp only [if_neg hchg]
        constructor
        · rintro (h | ⟨c2, hc2, h⟩)
          · exact Or.inl h
          · exact Or.inr ⟨c2, List.mem_cons_of_mem _ hc2, h⟩
        · rintro (h | ⟨c2, hc2, hi2, hch2, h⟩)
          · exact Or.inl h
          · rcases List.mem_cons.mp hc2 with h2 | h2
            · subst h2; exact absurd hch2 hchg
            · exact Or.inr ⟨c2, h2, hi2, hch2, h⟩

/-- Structure of a successful `try_match`: the first unmatched equal-hash
added block is flipped to matched with `match_line` pointing at the deleted
block, and its start line is reported. -/
theorem try_match_some :
    ∀ (adds : List MovedBlock) (d : MovedBlock) (adds' : List MovedBlock) (s : Nat),
      try_match d adds = some (adds', s) →
      ∃ pre a0 post, adds = pre ++ a0 :: post ∧
        adds' = pre ++
          ({ a0 with matched := true, match_line := (d.start_line : Int) } :: post) ∧
        a0.matched = false ∧ a0.hash = d.hash ∧ s = a0.start_line := by
  intro adds
  induction adds with
  | nil => intro d adds' s h; simp [try_match] at h
  | cons a rest ih =>
    intro d adds' s h
    simp only [try_match] at h
    split_ifs at h with hcond
    · have h1 : ({ a with matched := true, match_line := (d.start_line : Int) } :: rest,
          a.start_line) = (adds', s) := Option.some.inj h
      obtain ⟨h1, h2⟩ := Prod.mk.injEq .. ▸ h1
      refine ⟨[], a, rest, rfl, by rw [← h1]; rfl, ?_, hcond.2, h2.symm⟩
      cases hm : a.matched
      · rfl
      · exact absurd hm hcond.1
    · cases htm : try_match d rest with
      | none => rw [htm] at h; cases h
      | some ls =>
        obtain ⟨l, s0⟩ := ls
        rw [htm] at h
        have h1 : (a :: l, s0) = (adds', s) := Option.some.inj h
        obtain ⟨h1, h2⟩ := Prod.mk.injEq .. ▸ h1
        obtain ⟨pre, a0, post, hdec, hres, hm, hh, hs⟩ := ih d l s0 htm
        refine ⟨a :: pre, a0, post, by rw [hdec]; rfl, ?_, hm, hh, by rw [← h2, hs]⟩
        rw [← h1, hres]
        rfl

/-- `try_match` preserves every core. -/
theorem try_match_core {adds : List MovedBlock} {d : MovedBlock}
    {adds' : List MovedBlock} {s : Nat} (h : try_match d adds = some (adds', s)) :
    adds'.map core = adds.map core := by
  obtain ⟨pre, a0, post, hdec, hres, _, _, _⟩ := try_match_some adds d adds' s h
  rw [hdec, hres]
  simp [core]

/-- `try_match` keeps every already-matched added block in place. -/
theorem try_match_mono {adds : List MovedBlock} {d : MovedBlock}
    {adds' : List MovedBlock} {s : Nat} (h : try_match d adds = some (adds', s))
    {a : MovedBlock} (ha : a ∈ adds) (hm : a.matched = true) : a ∈ adds' := by
  obtain ⟨pre, a0, post, hdec, hres, hm0, _, _⟩ := try_match_some adds d adds' s h
  subst hdec
  rw [hres]
  rcases List.mem_append.mp ha with h1 | h1
  · exact List.mem_append.mpr (Or.inl h1)
  · rcases List.mem_cons.mp h1 with h2 | h2
    · subst h2; rw [hm0] at hm; cases hm
    · exact List.mem_append.mpr (Or.inr (List.mem_cons_of_mem _ h2))

/-- The matching phase preserves every core on both sides. -/
theorem match_phase_core :
    ∀ (ds adds : List MovedBlock),
      (match_phase ds adds).1.map core = ds.map core ∧
      (match_phase ds adds).2.map core = adds.map core := by
  intro ds
  induction ds with
  | nil => intro adds; exact ⟨rfl, rfl⟩
  | cons d rest ih =>
    intro adds
    by_cases hm : d.matched = true
    · simp only [match_phase, hm, if_true, List.map_cons]
      exact ⟨by rw [(ih adds).1], (ih adds).2⟩
    · have hm' : d.matched = false := by
        cases h : d.matched
        · rfl
        · exact absurd h hm
      simp only [match_phase, hm', Bool.false_eq_true, if_false]
      cases htm : try_match d adds with
      | none => exact ⟨by simp [(ih adds).1], (ih adds).2⟩
      | some ls =>
        obtain ⟨adds1, s⟩ := ls
        refine ⟨?_, ?_⟩
        · simp only [List.map_cons]
          rw [(ih adds1).1]
          rfl
        · rw [(ih adds1).2, try_match_core htm]

/-- The matching phase keeps every already-matched added block. -/
theorem match_phase_adds_mono :
    ∀ (ds adds : List MovedBlock) (a : MovedBlock),
      a ∈ adds → a.matched = true → a ∈ (match_phase ds adds).2 := by
  intro ds
  induction ds with
  | nil => intro adds a ha _; exact ha
  | cons d rest ih =>
    intro adds a ha hm
    by_cases hdm : d.matched = true
    · simp only [match_phase, hdm, if_true]
      exact ih adds a ha hm
    · have hdm' : d.matched = false := by
        cases h : d.matched
        · rfl
        · exact absurd h hdm
      simp only [match_phase, hdm', Bool.false_eq_true, if_false]
      cases htm : try_match d adds with
      | none => exact ih adds a ha hm
      | some ls =>
        obtain ⟨adds1, s⟩ := ls
        exact ih adds1 a (try_match_mono htm ha hm) hm

/-- Unfolding the matching phase over an already-matched head. -/
theorem match_phase_cons_matched (d : MovedBlock) (rest adds : List MovedBlock)
    (h : d.matched = true) :
    match_phase (d :: rest) adds =
      (d :: (match_phase rest adds).1, (match_phase rest adds).2) := by
  simp [match_phase, h]

/-- Unfolding the matching phase when no partner is found. -/
theorem match_phase_cons_none (d : MovedBlock) (rest adds : List MovedBlock)
    (h : d.matched = false) (ht : try_match d adds = none) :
    match_phase (d :: rest) adds =
      (d :: (match_phase rest adds).1, (match_phase rest adds).2) := by
  simp [match_phase, h, ht]

/-- Unfolding the matching phase when a partner is found. -/
theorem match_phase_cons_some (d : MovedBlock) (rest adds adds1 : List MovedBlock)
    (s : Nat) (h : d.matched = false) (ht : try_match d adds = some (adds1, s)) :
    match_phase (d :: rest) adds =
      ({ d with matched := true, match_line := (s : Int) } ::
          (match_phase rest adds1).1,
        (match_phase rest adds1).2) := by
  simp [match_phase, h, ht]

/-- What the matching phase establishes, starting from fresh deleted
blocks: every matched deleted block has a matched partner with equal hash
and mutual `match_line`s; unmatched deleted blocks are untouched; and every
added block is either untouched or newly matched to a partner. -/
theorem match_phase_spec :
    ∀ (ds adds : List MovedBlock), (∀ d ∈ ds, d.matched = false) →
      (∀ d' ∈ (match_phase ds adds).1, d'.matched = true →
        ∃ a' ∈ (match_phase ds adds).2, a'.matched = true ∧ paired d' a') ∧
      (∀ d' ∈ (match_phase ds adds).1, d'.matched = false → d' ∈ ds) ∧
      (∀ a' ∈ (match_phase ds adds).2, a' ∈ adds ∨ (a'.matched = true ∧
        ∃ d' ∈ (match_phase ds adds).1, d'.matched = true ∧ paired d' a')) := by
  intro ds
  induction ds with
  | nil =>
    intro adds _
    exact ⟨by simp [match_phase], by simp [match_phase], by
      intro a' ha'
      exact Or.inl ha'⟩
  | cons d rest ih =>
    intro adds hfresh
    have hd : d.matched = false := hfresh d (List.mem_cons_self _ _)
    have hfresh' : ∀ d2 ∈ rest, d2.matched = false := fun d2 h2 =>
      hfresh d2 (List.mem_cons_of_mem _ h2)
    simp only [match_phase, hd, Bool.false_eq_true, if_false]
    cases htm : try_match d adds with
    | none =>
      obtain ⟨ih1, ih2, ih3⟩ := ih adds hfresh'
      refine ⟨?_, ?_, ?_⟩
      · intro d' hd' hm'
        rcases List.mem_cons.mp hd' with h | h
        · subst h; rw [hd] at hm'; cases hm'
        · exact ih1 d' h hm'
      · intro d' hd' hm'
        rcases List.mem_cons.mp hd' with h | h
        · exact h ▸ List.mem_cons_self _ _
        · exact List.mem_cons_of_mem _ (ih2 d' h hm')
      · intro a' ha'
        rcases ih3 a' ha' with h | ⟨hm', d', hd', hdm', hp⟩
        · exact Or.inl h
        · exact Or.inr ⟨hm', d', List.mem_cons_of_mem _ hd', hdm', hp⟩
    | some ls =>
      obtain ⟨adds1, s⟩ := ls
      obtain ⟨pre, a0, post, hdec, hres, hm0, hh0, hs0⟩ :=
        try_match_some adds d adds1 s htm
      obtain ⟨ih1, ih2, ih3⟩ := ih adds1 hfresh'
      set d1 : MovedBlock := { d with matched := true, match_line := (s : Int) } with hd1
      set a1 : MovedBlock :=
        { a0 with matched := true, match_line := (d.start_line : Int) } with ha1
      have ha1mem : a1 ∈ adds1 := by
        rw [hres]
        exact List.mem_append.mpr (Or.inr (List.mem_cons_self _ _))
      have ha1final : a1 ∈ (match_phase rest adds1).2 :=
        match_phase_adds_mono rest adds1 a1 ha1mem rfl
      have hpaired : paired d1 a1 := by
        refine ⟨hh0, rfl, ?_⟩
        show (s : Int) = (a0.start_line : Int)
        rw [hs0]
      refine ⟨?_, ?_, ?_⟩
      · intro d' hd' hm'
        rcases List.mem_cons.mp hd' with h | h
        · subst h
          exact ⟨a1, ha1final, rfl, hpaired⟩
        · exact ih1 d' h hm'
      · intro d' hd' hm'
        rcases List.mem_cons.mp hd' with h | h
        · subst h; cases hm'
        · exact List.mem_cons_of_mem _ (ih2 d' h hm')
      · intro a' ha'
        rcases ih3 a' ha' with h | ⟨hm', d', hd', hdm', hp⟩
        · rw [hres] at h
          rcases List.mem_append.mp h with h1 | h1
          · exact Or.inl (by rw [hdec]; exact List.mem_append.mpr (Or.inl h1))
          · rcases List.mem_cons.mp h1 with h2 | h2
            · subst h2
              exact Or.inr ⟨rfl, d1, List.mem_cons_self _ _, rfl, hpaired⟩
            · exact Or.inl (by
                rw [hdec]
                exact List.mem_append.mpr (Or.inr (List.mem_cons_of_mem _ h2)))
        · exact Or.inr ⟨hm', d', List.mem_cons_of_mem _ hd', hdm', hp⟩

/-- Number of unmatched blocks whose start line is `v`. -/
def u_start_cnt (v : Int) (l : List MovedBlock) : Nat :=
  (l.filter (fun b => ¬ b.matched ∧ (b.start_line : Int) = v)).length

/-- Unfolding `m_cnt` over a cons. -/
theorem m_cnt_cons (v : Int) (b : MovedBlock) (l : List MovedBlock) :
    m_cnt v (b :: l) =
      (if b.matched = true ∧ b.match_line = v then 1 else 0) + m_cnt v l := by
  simp only [m_cnt, List.filter_cons]
  split_ifs with h1 h2 h2 <;> simp_all <;> omega

/-- Unfolding `m_cnt` over an append. -/
theorem m_cnt_append (v : Int) (l1 l2 : List MovedBlock) :
    m_cnt v (l1 ++ l2) = m_cnt v l1 + m_cnt v l2 := by
  simp [m_cnt, List.filter_append]

/-- Unfolding `u_start_cnt` over a cons. -/
theorem u_start_cnt_cons (v : Int) (b : MovedBlock) (l : List MovedBlock) :
    u_start_cnt v (b :: l) =
      (if b.matched = false ∧ (b.start_line : Int) = v then 1 else 0) +
        u_start_cnt v l := by
  simp only [u_start_cnt, List.filter_cons]
  split_ifs with h1 h2 h2 <;> simp_all <;> omega

/-- Unfolding `u_start_cnt` over an append. -/
theorem u_start_cnt_append (v : Int) (l1 l2 : List MovedBlock) :
    u_start_cnt v (l1 ++ l2) = u_start_cnt v l1 + u_start_cnt v l2 := by
  simp [u_start_cnt, List.filter_append]

/-- A list of all-unmatched blocks has no matched counts. -/
theorem m_cnt_of_fresh {l : List MovedBlock} (h : ∀ b ∈ l, b.matched = false)
    (v : Int) : m_cnt v l = 0 := by
  induction l with
  | nil => rfl
  | cons b rest ih =>
    rw [m_cnt_cons]
    rw [h b (List.mem_cons_self _ _)] at *
    simp only [Bool.false_eq_true, false_and, if_false]
    have := ih (fun b2 h2 => h b2 (List.mem_cons_of_mem _ h2))
    omega

/-- With distinct start lines, at most one unmatched block starts at any
given line. -/
theorem u_start_cnt_of_nodup {l : List MovedBlock}
    (h : (l.map (fun b => b.start_line)).Nodup) (v : Int) : u_start_cnt v l ≤ 1 := by
  induction l with
  | nil => simp [u_start_cnt]
  | cons b rest ih =>
    rw [List.map_cons, List.nodup_cons] at h
    obtain ⟨hb, hrest⟩ := h
    rw [u_start_cnt_cons]
    split_ifs with hc
    · have hzero : u_start_cnt v rest = 0 := by
        have hnil : rest.filter (fun b2 => ¬ b2.matched ∧ (b2.start_line : Int) = v)
            = [] := by
          rw [List.filter_eq_nil_iff]
          intro b2 hb2
          simp only [Bool.not_eq_true, decide_eq_true_eq, not_and]
          intro _ hv
          apply hb
          refine List.mem_map.mpr ⟨b2, hb2, ?_⟩
          have hcast : (b2.start_line : Int) = (b.start_line : Int) := by
            rw [hv, ← hc.2]
          exact_mod_cast hcast
        unfold u_start_cnt
        rw [hnil]
        rfl
      omega
    · have := ih hrest
      omega

/-- The matched added blocks pointing at a line are bounded by the
unmatched deleted blocks starting there plus those already pointing
there. -/
theorem match_phase_m_cnt_adds (v : Int) :
    ∀ (ds adds : List MovedBlock),
      m_cnt v (match_phase ds adds).2 ≤ u_start_cnt v ds + m_cnt v adds := by
  intro ds
  induction ds with
  | nil => intro adds; simp [match_phase, u_start_cnt]
  | cons d rest ih =>
    intro adds
    by_cases hm : d.matched = true
    · rw [match_phase_cons_matched d rest adds hm, u_start_cnt_cons]
      dsimp only
      have := ih adds
      omega
    · have hm' : d.matched = false := by
        cases h : d.matched
        · rfl
        · exact absurd h hm
      cases htm : try_match d adds with
      | none =>
        rw [match_phase_cons_none d rest adds hm' htm, u_start_cnt_cons]
        dsimp only
        have := ih adds
        omega
      | some ls =>
        obtain ⟨adds1, s⟩ := ls
        obtain ⟨pre, a0, post, hdec, hres, hm0, hh0, hs0⟩ :=
          try_match_some adds d adds1 s htm
        have hcnt1 : m_cnt v adds1 =
            m_cnt v adds + (if (d.start_line : Int) = v then 1 else 0) := by
          rw [hdec, hres, m_cnt_append, m_cnt_append, m_cnt_cons, m_cnt_cons, hm0]
          simp only [Bool.false_eq_true, false_and, if_false]
          split_ifs with h1 h2 h2 <;> simp_all <;> omega
        rw [match_phase_cons_some d rest adds adds1 s hm' htm, u_start_cnt_cons, hm']
        dsimp only
        have hih := ih adds1
        rw [hcnt1] at hih
        simp only [eq_self_iff_true, true_and]
        split_ifs at hih ⊢ <;> omega

/-- The matched deleted blocks pointing at a line are bounded by the
unmatched added blocks starting there plus those already pointing there. -/
theorem match_phase_m_cnt_dels (v : Int) :
    ∀ (ds adds : List MovedBlock),
      m_cnt v (match_phase ds adds).1 ≤ u_start_cnt v adds + m_cnt v ds := by
  intro ds
  induction ds with
  | nil => intro adds; simp [match_phase, m_cnt]
  | cons d rest ih =>
    intro adds
    by_cases hm : d.matched = true
    · rw [match_phase_cons_matched d rest adds hm]
      dsimp only
      rw [m_cnt_cons, m_cnt_cons]
      have := ih adds
      omega
    · have hm' : d.matched = false := by
        cases h : d.matched
        · rfl
        · exact absurd h hm
      cases htm : try_match d adds with
      | none =>
        rw [match_phase_cons_none d rest adds hm' htm]
        dsimp only
        rw [m_cnt_cons, m_cnt_cons, hm']
        simp only [Bool.false_eq_true, false_and, if_false]
        have := ih adds
        omega
      | some ls =>
        obtain ⟨adds1, s⟩ := ls
        obtain ⟨pre, a0, post, hdec, hres, hm0, hh0, hs0⟩ :=
          try_match_some adds d adds1 s htm
        have hu1 : u_start_cnt v adds =
            u_start_cnt v adds1 + (if (a0.start_line : Int) = v then 1 else 0) := by
          rw [hdec, hres, u_start_cnt_append, u_start_cnt_append,
            u_start_cnt_cons, u_start_cnt_cons, hm0]
          simp only [Bool.false_eq_true, if_false]
          split_ifs with h1 h2 h2 <;> simp_all <;> omega
        rw [match_phase_cons_some d rest adds adds1 s hm' htm]
        dsimp only
        rw [m_cnt_cons, m_cnt_cons, hm', hu1]
        have hih := ih adds1
        subst hs0
        simp only [Bool.false_eq_true, false_and, if_false, true_and]
        split_ifs <;> omega

/-- Two distinct members force length at least two. -/
theorem two_mem_le_length {β : Type} {a b : β} :
    ∀ {l : List β}, a ∈ l → b ∈ l → a ≠ b → 2 ≤ l.length := by
  intro l
  induction l with
  | nil => intro ha _ _; cases ha
  | cons x rest ih =>
    intro ha hb hab
    rcases List.mem_cons.mp ha with h1 | h1
    · rcases List.mem_cons.mp hb with h2 | h2
      · exact absurd (h1.trans h2.symm) hab
      · have : 1 ≤ rest.length := List.length_pos.mpr (List.ne_nil_of_mem h2)
        simp only [List.length_cons]
        omega
    · have : 1 ≤ rest.length := List.length_pos.mpr (List.ne_nil_of_mem h1)
      simp only [List.length_cons]
      omega

/-- With at most one matched block pointing at `v`, two such blocks in the
list are equal. -/
theorem m_cnt_unique {v : Int} {l : List MovedBlock} (h : m_cnt v l ≤ 1)
    {a b : MovedBlock} (ha : a ∈ l) (hb : b ∈ l)
    (hpa : a.matched = true ∧ a.match_line = v)
    (hpb : b.matched = true ∧ b.match_line = v) : a = b := by
  by_contra hab
  have hfa : a ∈ l.filter (fun b2 => b2.matched ∧ b2.match_line = v) :=
    List.mem_filter.mpr ⟨ha, by simp [hpa.1, hpa.2]⟩
  have hfb : b ∈ l.filter (fun b2 => b2.matched ∧ b2.match_line = v) :=
    List.mem_filter.mpr ⟨hb, by simp [hpb.1, hpb.2]⟩
  have := two_mem_le_length hfa hfb hab
  unfold m_cnt at h
  omega

/-- A member of a split list different from the middle element survives a
replacement of the middle element. -/
theorem mem_replace_middle {β : Type} {a a0 x : β} {pre post : List β}
    (ha : a ∈ pre ++ a0 :: post) (hne : a ≠ a0) : a ∈ pre ++ x :: post := by
  rcases List.mem_append.mp ha with h | h
  · exact List.mem_append.mpr (Or.inl h)
  · rcases List.mem_cons.mp h with h2 | h2
    · exact absurd h2 hne
    · exact List.mem_append.mpr (Or.inr (List.mem_cons_of_mem _ h2))

/-- Unmatching the middle element cannot increase a matched count. -/
theorem m_cnt_unmatch_middle (v : Int) (pre post : List MovedBlock)
    (a0 : MovedBlock) :
    m_cnt v (pre ++ ({ a0 with matched := false } :: post)) ≤
      m_cnt v (pre ++ a0 :: post) := by
  rw [m_cnt_append, m_cnt_append, m_cnt_cons, m_cnt_cons]
  simp only [Bool.false_eq_true, false_and, if_false]
  split_ifs <;> omega

/-- What the partner search returns: either no partner exists, and the list
is unchanged, or the first partner is found and, when `small`, unmatched in
place. -/
theorem filter_scan_spec :
    ∀ (adds : List MovedBlock) (small : Bool) (d : MovedBlock),
      ((filter_scan small d adds).2 = false ∧ (filter_scan small d adds).1 = adds ∧
        ∀ a ∈ adds, ¬ filter_pred d a) ∨
      ((filter_scan small d adds).2 = true ∧
        ∃ pre a0 post, adds = pre ++ a0 :: post ∧ filter_pred d a0 ∧
          (filter_scan small d adds).1 =
            pre ++ ((if small then { a0 with matched := false } else a0) :: post)) := by
  intro adds
  induction adds with
  | nil => intro small d; exact Or.inl ⟨rfl, rfl, by simp⟩
  | cons a rest ih =>
    intro small d
    by_cases hp : filter_pred d a
    · refine Or.inr ⟨?_, [], a, rest, rfl, hp, ?_⟩
      · cases small <;> simp [filter_scan, hp]
      · cases small <;> simp [filter_scan, hp]
    · rcases ih small d with ⟨h2, h1, hall⟩ | ⟨h2, pre, a0, post, hdec, hp0, hres⟩
      · refine Or.inl ⟨?_, ?_, ?_⟩
        · simp [filter_scan, hp, h2]
        · simp [filter_scan, hp, h1]
        · intro a2 ha2
          rcases List.mem_cons.mp ha2 with h | h
          · exact h ▸ hp
          · exact hall a2 h
      · refine Or.inr ⟨?_, a :: pre, a0, post, by rw [hdec]; rfl, hp0, ?_⟩
        · simp [filter_scan, hp, h2]
        · simp only [filter_scan, hp, if_neg hp]
          rw [hres]
          rfl

/-- A matched block pointing at `v` makes the matched count positive. -/
theorem m_cnt_pos_of_mem {v : Int} {l : List MovedBlock} {b : MovedBlock}
    (hb : b ∈ l) (hm : b.matched = true) (hv : b.match_line = v) :
    0 < m_cnt v l := by
  have : b ∈ l.filter (fun b2 => b2.matched ∧ b2.match_line = v) :=
    List.mem_filter.mpr ⟨hb, by simp [hm, hv]⟩
  have := List.length_pos_of_mem this
  unfold m_cnt
  omega

/-- Unfolding the size filter over a cons. -/
theorem filter_phase_cons (recs1 : List (List Char)) (min_size : Nat)
    (d : MovedBlock) (ds adds : List MovedBlock) :
    filter_phase recs1 min_size (d :: ds) adds =
      ((filter_one recs1 min_size d adds).1 ::
         (filter_phase recs1 min_size ds (filter_one recs1 min_size d adds).2).1,
       (filter_phase recs1 min_size ds (filter_one recs1 min_size d adds).2).2) := rfl

/-- A matched paired added block satisfies the partner condition. -/
theorem filter_pred_of_paired {d a : MovedBlock} (hm : a.matched = true)
    (hp : paired d a) : filter_pred d a :=
  ⟨hm, hp.1, hp.2.1⟩

/-- What one pass of the size filter guarantees. -/
structure FilterOut (recs1 : List (List Char)) (min_size : Nat)
    (ds adds ds' adds' : List MovedBlock) : Prop where
  keep_unmatched_d : ∀ d ∈ ds, d.matched = false → d ∈ ds'
  keep_big_d : ∀ d ∈ ds, d.matched = true → min_size ≤ blk_alnum recs1 d → d ∈ ds'
  drop_small_d : ∀ d ∈ ds, d.matched = true → blk_alnum recs1 d < min_size →
    { d with matched := false } ∈ ds'
  keep_unmatched_a : ∀ a ∈ adds, a.matched = false → a ∈ adds'
  keep_big_a : ∀ a ∈ adds, a.matched = true → ∀ d ∈ ds, d.matched = true →
    paired d a → min_size ≤ blk_alnum recs1 d → a ∈ adds'
  drop_small_a : ∀ a ∈ adds, a.matched = true → ∀ d ∈ ds, d.matched = true →
    paired d a → blk_alnum recs1 d < min_size → { a with matched := false } ∈ adds'
  keep_unrelated_a : ∀ a ∈ adds, a.matched = true →
    (∀ d ∈ ds, d.matched = true → a.match_line ≠ (d.start_line : Int)) → a ∈ adds'
  prov_d : ∀ x ∈ ds', x ∈ ds ∨ ∃ d ∈ ds, d.matched = true ∧
    x = { d with matched := false } ∧ blk_alnum recs1 d < min_size
  prov_a : ∀ y ∈ adds', y ∈ adds ∨ ∃ a ∈ adds, a.matched = true ∧
    y = { a with matched := false } ∧ ∃ d ∈ ds, d.matched = true ∧ paired d a ∧
      blk_alnum recs1 d < min_size
  matched_d_big : ∀ x ∈ ds', x.matched = true → min_size ≤ blk_alnum recs1 x
  matched_a_partner_big : ∀ y ∈ adds', y.matched = true → ∀ d2 ∈ ds,
    d2.matched = true → y.match_line = (d2.start_line : Int) →
    min_size ≤ blk_alnum recs1 d2

/-- The size filter's behaviour, given the matching phase's invariants:
matched pairs survive when the deleted block is large enough and are
unmatched together when it is not; everything else is untouched. -/
theorem filter_phase_spec (recs1 : List (List Char)) (min_size : Nat) :
    ∀ (ds adds : List MovedBlock),
      (∀ d ∈ ds, d.matched = true → ∃ a ∈ adds, a.matched = true ∧ paired d a) →
      (∀ v, m_cnt v adds ≤ 1) →
      (ds.map (fun b => b.start_line)).Nodup →
      FilterOut recs1 min_size ds adds (filter_phase recs1 min_size ds adds).1
        (filter_phase recs1 min_size ds adds).2 := by
  intro ds
  induction ds with
  | nil =>
    intro adds _ _ _
    exact ⟨by simp, by simp, by simp, by intro a ha _; exact ha,
      by simp, by simp, by intro a ha _ _; exact ha,
      by simp [filter_phase], by intro y hy; exact Or.inl hy,
      by simp [filter_phase],
      by intro y hy hym d2 hd2; exact absurd hd2 (List.not_mem_nil _)⟩
  | cons d rest ih =>
    intro adds hpairs huniq hnodup
    rw [List.map_cons, List.nodup_cons] at hnodup
    obtain ⟨hdstart, hnodup'⟩ := hnodup
    by_cases hdm : d.matched = true
    · -- the head is matched: its partner exists and is found by the scan
      obtain ⟨astar, hastar, hasm, haspair⟩ :=
        hpairs d (List.mem_cons_self _ _) hdm
      by_cases hsm : blk_alnum recs1 d < min_size
      · -- small: the pair is unmatched together
        have hsmb : decide (blk_alnum recs1 d < min_size) = true := by
          simp [hsm]
        have hfo0 : filter_one recs1 min_size d adds =
            (if (filter_scan true d adds).2 = true ∧ blk_alnum recs1 d < min_size
               then { d with matched := false } else d,
             (filter_scan true d adds).1) := by
          simp only [filter_one, hdm, if_true, hsmb, decide_True]
        rcases filter_scan_spec adds true d with ⟨h2, h1, hall⟩ |
          ⟨h2, pre, a0, post, hdec, hp0, hres⟩
        · exact absurd (filter_pred_of_paired hasm haspair) (hall astar hastar)
        · have hfo : filter_one recs1 min_size d adds =
              ({ d with matched := false },
               pre ++ ({ a0 with matched := false } :: post)) := by
            rw [hfo0, hres, if_pos (And.intro h2 hsm)]
            simp
          -- the found partner is the partner
          have ha0mem : a0 ∈ adds := by rw [hdec]; simp
          have ha0astar : a0 = astar := by
            refine m_cnt_unique (huniq ((d.start_line : Int))) ha0mem hastar
              ⟨hp0.1, hp0.2.2⟩ ⟨hasm, haspair.2.1⟩
          set adds2 := pre ++ ({ a0 with matched := false } :: post) with hadds2
          have hm2 : ∀ v, m_cnt v adds2 ≤ 1 := by
            intro v
            have := m_cnt_unmatch_middle v pre post a0
            rw [← hdec] at this
            exact le_trans this (huniq v)
          have hpairs2 : ∀ d2 ∈ rest, d2.matched = true →
              ∃ a ∈ adds2, a.matched = true ∧ paired d2 a := by
            intro d2 hd2 hd2m
            obtain ⟨a2, ha2, ha2m, ha2p⟩ :=
              hpairs d2 (List.mem_cons_of_mem _ hd2) hd2m
            refine ⟨a2, ?_, ha2m, ha2p⟩
            have hne : a2 ≠ a0 := by
              intro he
              have h1 : a2.match_line = (d2.start_line : Int) := ha2p.2.1
              have h2' : a2.match_line = (d.start_line : Int) := he ▸ hp0.2.2
              have : (d2.start_line : Int) = (d.start_line : Int) := h1 ▸ h2'
              have : d2.start_line = d.start_line := by exact_mod_cast this
              exact hdstart (List.mem_map.mpr ⟨d2, hd2, this⟩)
            rw [hadds2]
            exact mem_replace_middle (hdec ▸ ha2) hne
          have hrec := ih adds2 hpairs2 hm2 hnodup'
          rw [filter_phase_cons, hfo]
          refine ⟨?_, ?_, ?_, ?_, ?_, ?_, ?_, ?_, ?_, ?_, ?_⟩
          · intro d2 hd2 hd2m
            rcases List.mem_cons.mp hd2 with h | h
            · subst h; rw [hdm] at hd2m; cases hd2m
            · exact List.mem_cons_of_mem _ (hrec.keep_unmatched_d d2 h hd2m)
          · intro d2 hd2 hd2m hbig
            rcases List.mem_cons.mp hd2 with h | h
            · subst h; omega
            · exact List.mem_cons_of_mem _ (hrec.keep_big_d d2 h hd2m hbig)
          · intro d2 hd2 hd2m hsmall
            rcases List.mem_cons.mp hd2 with h | h
            · subst h; exact List.mem_cons_self _ _
            · exact List.mem_cons_of_mem _ (hrec.drop_small_d d2 h hd2m hsmall)
          · intro a ha ham
            have hne : a ≠ a0 := by
              intro he
              rw [he, hp0.1] at ham
              cases ham
            exact hrec.keep_unmatched_a a (mem_replace_middle (hdec ▸ ha) hne) ham
          · intro a ha ham d2 hd2 hd2m hp hbig
            rcases List.mem_cons.mp hd2 with h | h
            · subst h; omega
            · have hne : a ≠ a0 := by
                intro he
                have h1 : a.match_line = (d2.start_line : Int) := hp.2.1
                have h2' : a.match_line = (d.start_line : Int) := he ▸ hp0.2.2
                have h3 : (d2.start_line : Int) = (d.start_line : Int) := h1 ▸ h2'
                have h4 : d2.start_line = d.start_line := by exact_mod_cast h3
                exact hdstart (List.mem_map.mpr ⟨d2, h, h4⟩)
              exact hrec.keep_big_a a (mem_replace_middle (hdec ▸ ha) hne) ham
                d2 h hd2m hp hbig
          · intro a ha ham d2 hd2 hd2m hp hsmall
            rcases List.mem_cons.mp hd2 with h | h
            · rw [h] at hp
              have haa0 : a = a0 :=
                m_cnt_unique (huniq ((d.start_line : Int))) ha ha0mem
                  ⟨ham, hp.2.1⟩ ⟨hp0.1, hp0.2.2⟩
              rw [haa0]
              refine hrec.keep_unmatched_a _ ?_ rfl
              rw [hadds2]
              simp
            · have hne : a ≠ a0 := by
                intro he
                have h1 : a.match_line = (d2.start_line : Int) := hp.2.1
                have h2' : a.match_line = (d.start_line : Int) := he ▸ hp0.2.2
                have h3 : (d2.start_line : Int) = (d.start_line : Int) := h1 ▸ h2'
                have h4 : d2.start_line = d.start_line := by exact_mod_cast h3
                exact hdstart (List.mem_map.mpr ⟨d2, h, h4⟩)
              exact hrec.drop_small_a a (mem_replace_middle (hdec ▸ ha) hne) ham
                d2 h hd2m hp hsmall
          · intro a ha ham hun
            have hne : a ≠ a0 := by
              intro he
              exact hun d (List.mem_cons_self _ _) hdm (he ▸ hp0.2.2)
            refine hrec.keep_unrelated_a a (mem_replace_middle (hdec ▸ ha) hne) ham ?_
            intro d2 hd2 hd2m
            exact hun d2 (List.mem_cons_of_mem _ hd2) hd2m
          · intro x hx
            rcases List.mem_cons.mp hx with h | h
            · exact Or.inr ⟨d, List.mem_cons_self _ _, hdm, h, hsm⟩
            · rcases hrec.prov_d x h with h1 | ⟨d2, hd2, hd2m, hx2, hsm2⟩
              · exact Or.inl (List.mem_cons_of_mem _ h1)
              · exact Or.inr ⟨d2, List.mem_cons_of_mem _ hd2, hd2m, hx2, hsm2⟩
          · intro y hy
            rcases hrec.prov_a y hy with h1 | ⟨a, ha, ham, hy2, d2, hd2, hd2m, hp, hsm2⟩
            · -- y comes from adds2: either untouched or the unmatched partner
              rw [hadds2] at h1
              rcases List.mem_append.mp h1 with h2 | h2
              · exact Or.inl (by rw [hdec]; exact List.mem_append.mpr (Or.inl h2))
              · rcases List.mem_cons.mp h2 with h3 | h3
                · refine Or.inr ⟨a0, ha0mem, hp0.1, h3, d, List.mem_cons_self _ _,
                    hdm, ?_, hsm⟩
                  rw [ha0astar]
                  exact haspair
                · exact Or.inl (by
                    rw [hdec]
                    exact List.mem_append.mpr (Or.inr (List.mem_cons_of_mem _ h3)))
            · have hamem : a ∈ adds := by
                have hne : a ≠ { a0 with matched := false } := by
                  intro he
                  rw [he] at ham
                  cases ham
                rw [hadds2] at ha
                rw [hdec]
                exact mem_replace_middle ha hne
              exact Or.inr ⟨a, hamem, ham, hy2, d2, List.mem_cons_of_mem _ hd2,
                hd2m, hp, hsm2⟩
          · intro x hx hxm
            rcases List.mem_cons.mp hx with h | h
            · rw [h] at hxm
              simp at hxm
            · exact hrec.matched_d_big x h hxm
          · intro y hy hym d2 hd2 hd2m hyml
            rcases List.mem_cons.mp hd2 with h | h
            · exfalso
              rw [h] at hyml
              have hy2 : y ∈ adds2 := by
                rcases hrec.prov_a y hy with h1 | ⟨a, ha, ham, hy3, hrest3⟩
                · exact h1
                · rw [hy3] at hym
                  simp at hym
              have hle := huniq ((d.start_line : Int))
              rw [hdec, m_cnt_append, m_cnt_cons,
                if_pos (And.intro hp0.1 hp0.2.2)] at hle
              have hzero : m_cnt ((d.start_line : Int)) adds2 = 0 := by
                rw [hadds2, m_cnt_append, m_cnt_cons]
                simp only [Bool.false_eq_true, false_and, if_false]
                omega
              have hpos := m_cnt_pos_of_mem hy2 hym hyml
              omega
            · exact hrec.matched_a_partner_big y hy hym d2 h hd2m hyml
      · -- large enough: the pair survives untouched
        have hsmb : decide (blk_alnum recs1 d < min_size) = false := by
          simp [hsm]
        rcases filter_scan_spec adds false d with ⟨h2, h1, hall⟩ |
          ⟨h2, pre, a0, post, hdec, hp0, hres⟩
        · exact absurd (filter_pred_of_paired hasm haspair) (hall astar hastar)
        · have hfo : filter_one recs1 min_size d adds = (d, adds) := by
            simp only [filter_one, hdm, if_true, hsmb]
            rw [if_neg (fun hc => hsm hc.2)]
            refine Prod.ext rfl ?_
            show (filter_scan false d adds).1 = adds
            rw [hres, hdec]
            simp
          have hrec := ih adds
            (fun d2 hd2 => hpairs d2 (List.mem_cons_of_mem _ hd2)) huniq hnodup'
          rw [filter_phase_cons, hfo]
          refine ⟨?_, ?_, ?_, ?_, ?_, ?_, ?_, ?_, ?_, ?_, ?_⟩
          · intro d2 hd2 hd2m
            rcases List.mem_cons.mp hd2 with h | h
            · subst h; rw [hdm] at hd2m; cases hd2m
            · exact List.mem_cons_of_mem _ (hrec.keep_unmatched_d d2 h hd2m)
          · intro d2 hd2 hd2m hbig
            rcases List.mem_cons.mp hd2 with h | h
            · subst h; exact List.mem_cons_self _ _
            · exact List.mem_cons_of_mem _ (hrec.keep_big_d d2 h hd2m hbig)
          · intro d2 hd2 hd2m hsmall
            rcases List.mem_cons.mp hd2 with h | h
            · subst h; omega
            · exact List.mem_cons_of_mem _ (hrec.drop_small_d d2 h hd2m hsmall)
          · exact hrec.keep_unmatched_a
          · intro a ha ham d2 hd2 hd2m hp hbig
            rcases List.mem_cons.mp hd2 with h | h
            · rw [h] at hp
              refine hrec.keep_unrelated_a a ha ham ?_
              intro d3 hd3 hd3m
              rw [hp.2.1]
              intro hsame
              have he : d.start_line = d3.start_line := by exact_mod_cast hsame
              exact hdstart (List.mem_map.mpr ⟨d3, hd3, he.symm⟩)
            · exact hrec.keep_big_a a ha ham d2 h hd2m hp hbig
          · intro a ha ham d2 hd2 hd2m hp hsmall
            rcases List.mem_cons.mp hd2 with h | h
            · subst h; omega
            · exact hrec.drop_small_a a ha ham d2 h hd2m hp hsmall
          · intro a ha ham hun
            refine hrec.keep_unrelated_a a ha ham ?_
            intro d2 hd2 hd2m
            exact hun d2 (List.mem_cons_of_mem _ hd2) hd2m
          · intro x hx
            rcases List.mem_cons.mp hx with h | h
            · exact Or.inl (h ▸ List.mem_cons_self _ _)
            · rcases hrec.prov_d x h with h1 | ⟨d2, hd2, hd2m, hx2, hsm2⟩
              · exact Or.inl (List.mem_cons_of_mem _ h1)
              · exact Or.inr ⟨d2, List.mem_cons_of_mem _ hd2, hd2m, hx2, hsm2⟩
          · intro y hy
            rcases hrec.prov_a y hy with h1 | ⟨a, ha, ham, hy2, d2, hd2, hd2m, hp, hsm2⟩
            · exact Or.inl h1
            · exact Or.inr ⟨a, ha, ham, hy2, d2, List.mem_cons_of_mem _ hd2,
                hd2m, hp, hsm2⟩
          · intro x hx hxm
            rcases List.mem_cons.mp hx with h | h
            · rw [h]; dsimp only; omega
            · exact hrec.matched_d_big x h hxm
          · intro y hy hym d2 hd2 hd2m hyml
            rcases List.mem_cons.mp hd2 with h | h
            · rw [h]; omega
            · exact hrec.matched_a_partner_big y hy hym d2 h hd2m hyml
    · -- the head is unmatched: nothing happens to it
      have hdm' : d.matched = false := by
        cases h : d.matched
        · rfl
        · exact absurd h hdm
      have hfo : filter_one recs1 min_size d adds = (d, adds) := by
        simp [filter_one, hdm']
      have hrec := ih adds
        (fun d2 hd2 => hpairs d2 (List.mem_cons_of_mem _ hd2)) huniq hnodup'
      rw [filter_phase_cons, hfo]
      refine ⟨?_, ?_, ?_, ?_, ?_, ?_, ?_, ?_, ?_, ?_, ?_⟩
      · intro d2 hd2 hd2m
        rcases List.mem_cons.mp hd2 with h | h
        · exact h ▸ List.mem_cons_self _ _
        · exact List.mem_cons_of_mem _ (hrec.keep_unmatched_d d2 h hd2m)
      · intro d2 hd2 hd2m hbig
        rcases List.mem_cons.mp hd2 with h | h
        · subst h; rw [hdm'] at hd2m; cases hd2m
        · exact List.mem_cons_of_mem _ (hrec.keep_big_d d2 h hd2m hbig)
      · intro d2 hd2 hd2m hsmall
        rcases List.mem_cons.mp hd2 with h | h
        · subst h; rw [hdm'] at hd2m; cases hd2m
        · exact List.mem_cons_of_mem _ (hrec.drop_small_d d2 h hd2m hsmall)
      · exact hrec.keep_unmatched_a
      · intro a ha ham d2 hd2 hd2m hp hbig
        rcases List.mem_cons.mp hd2 with h | h
        · subst h; rw [hdm'] at hd2m; cases hd2m
        · exact hrec.keep_big_a a ha ham d2 h hd2m hp hbig
      · intro a ha ham d2 hd2 hd2m hp hsmall
        rcases List.mem_cons.mp hd2 with h | h
        · subst h; rw [hdm'] at hd2m; cases hd2m
        · exact hrec.drop_small_a a ha ham d2 h hd2m hp hsmall
      · intro a ha ham hun
        refine hrec.keep_unrelated_a a ha ham ?_
        intro d2 hd2 hd2m
        exact hun d2 (List.mem_cons_of_mem _ hd2) hd2m
      · intro x hx
        rcases List.mem_cons.mp hx with h | h
        · exact Or.inl (h ▸ List.mem_cons_self _ _)
        · rcases hrec.prov_d x h with h1 | ⟨d2, hd2, hd2m, hx2, hsm2⟩
          · exact Or.inl (List.mem_cons_of_mem _ h1)
          · exact Or.inr ⟨d2, List.mem_cons_of_mem _ hd2, hd2m, hx2, hsm2⟩
      · intro y hy
        rcases hrec.prov_a y hy with h1 | ⟨a, ha, ham, hy2, d2, hd2, hd2m, hp, hsm2⟩
        · exact Or.inl h1
        · exact Or.inr ⟨a, ha, ham, hy2, d2, List.mem_cons_of_mem _ hd2,
            hd2m, hp, hsm2⟩
      · intro x hx hxm
        rcases List.mem_cons.mp hx with h | h
        · rw [h, hdm'] at hxm; cases hxm
        · exact hrec.matched_d_big x h hxm
      · intro y hy hym d2 hd2 hd2m hyml
        rcases List.mem_cons.mp hd2 with h | h
        · rw [h, hdm'] at hd2m; cases hd2m
        · exact hrec.matched_a_partner_big y hy hym d2 h hd2m hyml

/-- Core equality componentwise. -/
theorem core_eq_iff {b1 b2 : MovedBlock} :
    core b1 = core b2 ↔ b1.start_line = b2.start_line ∧ b1.end_line = b2.end_line ∧
      b1.hash = b2.hash ∧ b1.is_deleted = b2.is_deleted := by
  simp [core, Prod.ext_iff]

/-- Signature equality componentwise. -/
theorem sig_eq_iff {b1 b2 : MovedBlock} :
    sig b1 = sig b2 ↔ core b1 = core b2 ∧ b1.matched = b2.matched ∧
      b1.match_line = b2.match_line := by
  simp [sig, Prod.ext_iff]

/-- Equal images under a map allow transferring membership up to the map. -/
theorem mem_of_map_eq {α β : Type} {f : α → β} {l1 l2 : List α}
    (h : l1.map f = l2.map f) {b : α} (hb : b ∈ l1) : ∃ b2 ∈ l2, f b2 = f b := by
  have hm : f b ∈ l2.map f := by
    rw [← h]
    exact List.mem_map_of_mem f hb
  obtain ⟨b2, hb2, he⟩ := List.mem_map.mp hm
  exact ⟨b2, hb2, he⟩

/-- The matched count only depends on the signatures. -/
theorem m_cnt_congr :
    ∀ {l1 l2 : List MovedBlock}, l1.map sig = l2.map sig →
      ∀ v, m_cnt v l1 = m_cnt v l2 := by
  intro l1
  induction l1 with
  | nil =>
    intro l2 h v
    cases l2 with
    | nil => rfl
    | cons b t => simp at h
  | cons b t ih =>
    intro l2 h v
    cases l2 with
    | nil => simp at h
    | cons b2 t2 =>
      simp only [List.map_cons, List.cons.injEq] at h
      obtain ⟨hb, ht⟩ := h
      obtain ⟨_, hm, hl⟩ := sig_eq_iff.mp hb
      rw [m_cnt_cons, m_cnt_cons, ih ht v, hm, hl]

/-- Equal core images give equal start-line images. -/
theorem map_start_of_map_core {l1 l2 : List MovedBlock}
    (h : l1.map core = l2.map core) :
    l1.map (fun b => b.start_line) = l2.map (fun b => b.start_line) := by
  have e : ∀ l : List MovedBlock,
      l.map (fun b => b.start_line) = (l.map core).map (fun p => p.1) := by
    intro l
    rw [List.map_map]
    rfl
  rw [e, e, h]

/-- Equal signature images give equal core images. -/
theorem map_core_of_map_sig {l1 l2 : List MovedBlock}
    (h : l1.map sig = l2.map sig) : l1.map core = l2.map core := by
  have e : ∀ l : List MovedBlock, l.map core = (l.map sig).map (fun p => p.1) := by
    intro l
    rw [List.map_map]
    rfl
  rw [e, e, h]

/-- The partner search preserves every core. -/
theorem filter_scan_core (small : Bool) (d : MovedBlock) :
    ∀ adds : List MovedBlock,
      (filter_scan small d adds).1.map core = adds.map core := by
  intro adds
  induction adds with
  | nil => rfl
  | cons a rest ih =>
    by_cases hp : filter_pred d a
    · simp only [filter_scan, if_pos hp]
      cases small
      · simp
      · simp [core]
    · simp only [filter_scan, if_neg hp]
      rw [List.map_cons, List.map_cons, ih]

/-- One filter step returns either the deleted block or its unmatched copy. -/
theorem filter_one_fst (recs1 : List (List Char)) (min_size : Nat)
    (d : MovedBlock) (adds : List MovedBlock) :
    (filter_one recs1 min_size d adds).1 = d ∨
    (filter_one recs1 min_size d adds).1 = { d with matched := false } := by
  by_cases hm : d.matched = true
  · simp only [filter_one, hm, if_true]
    split_ifs with h
    · exact Or.inr rfl
    · exact Or.inl rfl
  · have hm' : d.matched = false := by
      cases h : d.matched
      · rfl
      · exact absurd h hm
    simp [filter_one, hm']

/-- One filter step leaves the deleted block's core and every added core. -/
theorem filter_one_core (recs1 : List (List Char)) (min_size : Nat)
    (d : MovedBlock) (adds : List MovedBlock) :
    core (filter_one recs1 min_size d adds).1 = core d ∧
    (filter_one recs1 min_size d adds).2.map core = adds.map core := by
  constructor
  · rcases filter_one_fst recs1 min_size d adds with h | h <;> rw [h] <;> rfl
  · by_cases hm : d.matched = true
    · simp only [filter_one, hm, if_true]
      exact filter_scan_core _ _ _
    · have hm' : d.matched = false := by
        cases h : d.matched
        · rfl
        · exact absurd h hm
      simp [filter_one, hm']

/-- The size filter preserves the cores of both lists. -/
theorem filter_phase_core (recs1 : List (List Char)) (min_size : Nat) :
    ∀ ds adds : List MovedBlock,
      (filter_phase recs1 min_size ds adds).1.map core = ds.map core ∧
      (filter_phase recs1 min_size ds adds).2.map core = adds.map core := by
  intro ds
  induction ds with
  | nil => intro adds; exact ⟨rfl, rfl⟩
  | cons d rest ih =>
    intro adds
    rw [filter_phase_cons]
    obtain ⟨h1, h2⟩ := filter_one_core recs1 min_size d adds
    obtain ⟨ih1, ih2⟩ := ih (filter_one recs1 min_size d adds).2
    constructor
    · dsimp only
      rw [List.map_cons, List.map_cons, h1, ih1]
    · dsimp only
      rw [ih2, h2]

/-- The partner search cannot increase a matched count. -/
theorem filter_scan_m_cnt (small : Bool) (d : MovedBlock) (v : Int)
    (adds : List MovedBlock) :
    m_cnt v (filter_scan small d adds).1 ≤ m_cnt v adds := by
  rcases filter_scan_spec adds small d with ⟨_, h1, _⟩ |
    ⟨_, pre, a0, post, hdec, _, hres⟩
  · rw [h1]
  · rw [hres, hdec]
    cases small
    · simp
    · simpa using m_cnt_unmatch_middle v pre post a0

/-- One filter step cannot increase a matched count on the added side. -/
theorem filter_one_snd_m_cnt (recs1 : List (List Char)) (min_size : Nat)
    (d : MovedBlock) (adds : List MovedBlock) (v : Int) :
    m_cnt v (filter_one recs1 min_size d adds).2 ≤ m_cnt v adds := by
  by_cases hm : d.matched = true
  · simp only [filter_one, hm, if_true]
    exact filter_scan_m_cnt _ _ _ _
  · have hm' : d.matched = false := by
      cases h : d.matched
      · rfl
      · exact absurd h hm
    simp only [filter_one, hm', Bool.false_eq_true, if_false]
    exact le_refl _

/-- The size filter cannot increase matched counts on either side. -/
theorem filter_phase_m_cnt (recs1 : List (List Char)) (min_size : Nat) (v : Int) :
    ∀ ds adds : List MovedBlock,
      m_cnt v (filter_phase recs1 min_size ds adds).1 ≤ m_cnt v ds ∧
      m_cnt v (filter_phase recs1 min_size ds adds).2 ≤ m_cnt v adds := by
  intro ds
  induction ds with
  | nil => intro adds; exact ⟨le_refl _, le_refl _⟩
  | cons d rest ih =>
    intro adds
    rw [filter_phase_cons]
    obtain ⟨ih1, ih2⟩ := ih (filter_one recs1 min_size d adds).2
    constructor
    · dsimp only
      rw [m_cnt_cons, m_cnt_cons]
      rcases filter_one_fst recs1 min_size d adds with h | h
      · rw [h]
        omega
      · rw [h]
        simp only [Bool.false_eq_true, false_and, if_false]
        omega
    · dsimp only
      exact le_trans ih2 (filter_one_snd_m_cnt recs1 min_size d adds v)

/-- The zebra inner loop only changes zebra indices. -/
theorem zebra_scan_sig (d : MovedBlock) (idx : Int) :
    ∀ adds : List MovedBlock, (zebra_scan d idx adds).map sig = adds.map sig := by
  intro adds
  induction adds with
  | nil => rfl
  | cons a rest ih =>
    by_cases h : a.matched = true ∧ a.hash = d.hash
    · rw [show zebra_scan d idx (a :: rest) = { a with zebra_index := idx } :: rest
          from by simp [zebra_scan, h]]
      rfl
    · rw [show zebra_scan d idx (a :: rest) = a :: zebra_scan d idx rest
          from by simp [zebra_scan, h]]
      rw [List.map_cons, List.map_cons, ih]

/-- The zebra phase only changes zebra indices, on both sides. -/
theorem zebra_phase_sig :
    ∀ (ds : List MovedBlock) (c : Int) (adds : List MovedBlock),
      (zebra_phase c ds adds).1.map sig = ds.map sig ∧
      (zebra_phase c ds adds).2.1.map sig = adds.map sig := by
  intro ds
  induction ds with
  | nil => intro c adds; exact ⟨rfl, rfl⟩
  | cons d rest ih =>
    intro c adds
    by_cases h : d.matched = true ∧ d.zebra_index = -1
    · rw [show zebra_phase c (d :: rest) adds =
          ({ d with zebra_index := c } ::
             (zebra_phase (c + 1) rest (zebra_scan d c adds)).1,
           (zebra_phase (c + 1) rest (zebra_scan d c adds)).2.1,
           (zebra_phase (c + 1) rest (zebra_scan d c adds)).2.2)
          from by simp [zebra_phase, h]]
      obtain ⟨ih1, ih2⟩ := ih (c + 1) (zebra_scan d c adds)
      constructor
      · rw [List.map_cons, List.map_cons, ih1]
        rfl
      · rw [ih2, zebra_scan_sig]
    · rw [show zebra_phase c (d :: rest) adds =
          (d :: (zebra_phase c rest adds).1, (zebra_phase c rest adds).2.1,
           (zebra_phase c rest adds).2.2)
          from by simp [zebra_phase, h]]
      obtain ⟨ih1, ih2⟩ := ih c adds
      exact ⟨by rw [List.map_cons, List.map_cons, ih1], ih2⟩

/-- Provenance of a deleted block: it stems from a non-ignored change with
deleted lines, and its hash is the block hash of those lines in the old file
under the detector's own whitespace mode. -/
def del_src_pred (recs1 : List (List Char)) (changes : List XChange)
    (ws : MovedWsMode) (b : MovedBlock) : Prop :=
  ∃ xch ∈ changes, xch.ignore = false ∧ 0 < xch.chg1 ∧
    b.start_line = xch.i1 + 1 ∧ b.end_line = xch.i1 + xch.chg1 ∧
    b.is_deleted = true ∧ b.hash = compute_block_hash recs1 xch.i1 xch.chg1 ws

/-- Provenance of an added block. -/
def add_src_pred (recs2 : List (List Char)) (changes : List XChange)
    (ws : MovedWsMode) (b : MovedBlock) : Prop :=
  ∃ xch ∈ changes, xch.ignore = false ∧ 0 < xch.chg2 ∧
    b.start_line = xch.i2 + 1 ∧ b.end_line = xch.i2 + xch.chg2 ∧
    b.is_deleted = false ∧ b.hash = compute_block_hash recs2 xch.i2 xch.chg2 ws

/-- Provenance only depends on the core. -/
theorem del_src_pred_of_core {recs1 : List (List Char)} {changes : List XChange}
    {ws : MovedWsMode} {b b0 : MovedBlock} (he : core b0 = core b)
    (h : del_src_pred recs1 changes ws b0) : del_src_pred recs1 changes ws b := by
  obtain ⟨hs, hee, hh, hd⟩ := core_eq_iff.mp he
  obtain ⟨x, hx, hig, hch, h1, h2, h3, h4⟩ := h
  exact ⟨x, hx, hig, hch, by rw [← hs]; exact h1, by rw [← hee]; exact h2,
    by rw [← hd]; exact h3, by rw [← hh]; exact h4⟩

/-- Provenance only depends on the core (added side). -/
theorem add_src_pred_of_core {recs2 : List (List Char)} {changes : List XChange}
    {ws : MovedWsMode} {b b0 : MovedBlock} (he : core b0 = core b)
    (h : add_src_pred recs2 changes ws b0) : add_src_pred recs2 changes ws b := by
  obtain ⟨hs, hee, hh, hd⟩ := core_eq_iff.mp he
  obtain ⟨x, hx, hig, hch, h1, h2, h3, h4⟩ := h
  exact ⟨x, hx, hig, hch, by rw [← hs]; exact h1, by rw [← hee]; exact h2,
    by rw [← hd]; exact h3, by rw [← hh]; exact h4⟩

/-- The block-alphanumeric count only depends on the core. -/
theorem blk_alnum_congr (recs1 : List (List Char)) {b1 b2 : MovedBlock}
    (h : core b1 = core b2) : blk_alnum recs1 b1 = blk_alnum recs1 b2 := by
  obtain ⟨hs, he, _, _⟩ := core_eq_iff.mp h
  unfold blk_alnum
  rw [hs, he]

/-- The invariant carried through the phases of `collect_blocks_from_diff`:
provenance and hashing of every block, mutual pairing with at most one
matched block pointing at any line, the size bound on matched pairs once the
filter has run (`filtered`), and the `match_line` discipline of unmatched
blocks. -/
structure MovedInv (recs1 recs2 : List (List Char)) (changes : List XChange)
    (ws : MovedWsMode) (filtered : Bool) (min_size : Nat)
    (dels adds : List MovedBlock) : Prop where
  del_src : ∀ b ∈ dels, del_src_pred recs1 changes ws b
  add_src : ∀ b ∈ adds, add_src_pred recs2 changes ws b
  del_pair : ∀ d ∈ dels, d.matched = true → ∃ a ∈ adds, a.matched = true ∧ paired d a
  add_pair : ∀ a ∈ adds, a.matched = true → ∃ d ∈ dels, d.matched = true ∧ paired d a
  del_uniq : ∀ v, m_cnt v dels ≤ 1
  add_uniq : ∀ v, m_cnt v adds ≤ 1
  del_big : filtered = true → ∀ d ∈ dels, d.matched = true →
    min_size ≤ blk_alnum recs1 d
  del_unm : ∀ d ∈ dels, d.matched = false → d.match_line = -1 ∨
    (filtered = true ∧ blk_alnum recs1 d < min_size)
  add_unm : ∀ a ∈ adds, a.matched = false → a.match_line = -1 ∨ filtered = true

/-- Every collected deleted block has the declared provenance. -/
theorem collect_dels_src (recs1 recs2 : List (List Char)) (ws : MovedWsMode)
    (changes : List XChange) :
    ∀ b ∈ (collect_phase recs1 recs2 ws changes ([], [])).1,
      del_src_pred recs1 changes ws b := by
  intro b hb
  rcases (collect_phase_mem_dels recs1 recs2 ws changes ([], []) b).mp hb with
    h | ⟨c, hc, hig, hch, hb2⟩
  · exact absurd h (List.not_mem_nil _)
  · subst hb2
    exact ⟨c, hc, hig, hch, rfl, rfl, rfl, rfl⟩

/-- Every collected added block has the declared provenance. -/
theorem collect_adds_src (recs1 recs2 : List (List Char)) (ws : MovedWsMode)
    (changes : List XChange) :
    ∀ b ∈ (collect_phase recs1 recs2 ws changes ([], [])).2,
      add_src_pred recs2 changes ws b := by
  intro b hb
  rcases (collect_phase_mem_adds recs1 recs2 ws changes ([], []) b).mp hb with
    h | ⟨c, hc, hig, hch, hb2⟩
  · exact absurd h (List.not_mem_nil _)
  · subst hb2
    exact ⟨c, hc, hig, hch, rfl, rfl, rfl, rfl⟩

/-- Collected deleted blocks are fresh. -/
theorem collect_dels_fresh (recs1 recs2 : List (List Char)) (ws : MovedWsMode)
    (changes : List XChange) :
    ∀ b ∈ (collect_phase recs1 recs2 ws changes ([], [])).1,
      b.matched = false ∧ b.match_line = -1 := by
  intro b hb
  rcases (collect_phase_mem_dels recs1 recs2 ws changes ([], []) b).mp hb with
    h | ⟨c, hc, hig, hch, hb2⟩
  · exact absurd h (List.not_mem_nil _)
  · subst hb2
    exact ⟨rfl, rfl⟩

/-- Collected added blocks are fresh. -/
theorem collect_adds_fresh (recs1 recs2 : List (List Char)) (ws : MovedWsMode)
    (changes : List XChange) :
    ∀ b ∈ (collect_phase recs1 recs2 ws changes ([], [])).2,
      b.matched = false ∧ b.match_line = -1 := by
  intro b hb
  rcases (collect_phase_mem_adds recs1 recs2 ws changes ([], []) b).mp hb with
    h | ⟨c, hc, hig, hch, hb2⟩
  · exact absurd h (List.not_mem_nil _)
  · subst hb2
    exact ⟨rfl, rfl⟩

/-- After collection and matching (on change scripts whose collected blocks
have pairwise-distinct start lines), the invariant holds with the filter not
yet run. -/
theorem inv_after_match (recs1 recs2 : List (List Char)) (changes : List XChange)
    (ws : MovedWsMode) (min_size : Nat)
    (hnd1 : ((collect_phase recs1 recs2 ws changes ([], [])).1.map
      (fun b => b.start_line)).Nodup)
    (hnd2 : ((collect_phase recs1 recs2 ws changes ([], [])).2.map
      (fun b => b.start_line)).Nodup) :
    MovedInv recs1 recs2 changes ws false min_size
      (match_phase (collect_phase recs1 recs2 ws changes ([], [])).1
        (collect_phase recs1 recs2 ws changes ([], [])).2).1
      (match_phase (collect_phase recs1 recs2 ws changes ([], [])).1
        (collect_phase recs1 recs2 ws changes ([], [])).2).2 := by
  have hfresh1 : ∀ b ∈ (collect_phase recs1 recs2 ws changes ([], [])).1,
      b.matched = false := fun b hb => (collect_dels_fresh recs1 recs2 ws changes b hb).1
  have hfresh2 : ∀ b ∈ (collect_phase recs1 recs2 ws changes ([], [])).2,
      b.matched = false := fun b hb => (collect_adds_fresh recs1 recs2 ws changes b hb).1
  obtain ⟨hcore1, hcore2⟩ := match_phase_core
    (collect_phase recs1 recs2 ws changes ([], [])).1
    (collect_phase recs1 recs2 ws changes ([], [])).2
  obtain ⟨hp1, hp2, hp3⟩ := match_phase_spec
    (collect_phase recs1 recs2 ws changes ([], [])).1
    (collect_phase recs1 recs2 ws changes ([], [])).2 hfresh1
  refine ⟨?_, ?_, hp1, ?_, ?_, ?_, ?_, ?_, ?_⟩
  · intro b hb
    obtain ⟨b0, hb0, he⟩ := mem_of_map_eq hcore1 hb
    exact del_src_pred_of_core he (collect_dels_src recs1 recs2 ws changes b0 hb0)
  · intro b hb
    obtain ⟨b0, hb0, he⟩ := mem_of_map_eq hcore2 hb
    exact add_src_pred_of_core he (collect_adds_src recs1 recs2 ws changes b0 hb0)
  · intro a ha ham
    rcases hp3 a ha with h | ⟨_, d, hd, hdm, hp⟩
    · have := hfresh2 a h
      rw [this] at ham
      cases ham
    · exact ⟨d, hd, hdm, hp⟩
  · intro v
    have h := match_phase_m_cnt_dels v (collect_phase recs1 recs2 ws changes ([], [])).1
      (collect_phase recs1 recs2 ws changes ([], [])).2
    have hu := u_start_cnt_of_nodup hnd2 v
    have hm0 := m_cnt_of_fresh hfresh1 v
    omega
  · intro v
    have h := match_phase_m_cnt_adds v (collect_phase recs1 recs2 ws changes ([], [])).1
      (collect_phase recs1 recs2 ws changes ([], [])).2
    have hu := u_start_cnt_of_nodup hnd1 v
    have hm0 := m_cnt_of_fresh hfresh2 v
    omega
  · intro h
    exact absurd h (by simp)
  · intro d hd hdm
    exact Or.inl (collect_dels_fresh recs1 recs2 ws changes d (hp2 d hd hdm)).2
  · intro a ha ham
    rcases hp3 a ha with h | ⟨hm, _⟩
    · exact Or.inl (collect_adds_fresh recs1 recs2 ws changes a h).2
    · rw [ham] at hm
      cases hm

/-- The size filter turns an unfiltered invariant into a filtered one. -/
theorem inv_filter {recs1 recs2 : List (List Char)} {changes : List XChange}
    {ws : MovedWsMode} {min_size : Nat} {dels adds : List MovedBlock}
    (hinv : MovedInv recs1 recs2 changes ws false min_size dels adds)
    (hnd : (dels.map (fun b => b.start_line)).Nodup) :
    MovedInv recs1 recs2 changes ws true min_size
      (filter_phase recs1 min_size dels adds).1
      (filter_phase recs1 min_size dels adds).2 := by
  have FO := filter_phase_spec recs1 min_size dels adds hinv.del_pair hinv.add_uniq hnd
  obtain ⟨hcore1, hcore2⟩ := filter_phase_core recs1 min_size dels adds
  refine ⟨?_, ?_, ?_, ?_, ?_, ?_, ?_, ?_, ?_⟩
  · intro b hb
    obtain ⟨b0, hb0, he⟩ := mem_of_map_eq hcore1 hb
    exact del_src_pred_of_core he (hinv.del_src b0 hb0)
  · intro b hb
    obtain ⟨b0, hb0, he⟩ := mem_of_map_eq hcore2 hb
    exact add_src_pred_of_core he (hinv.add_src b0 hb0)
  · intro x hx hxm
    have hxin : x ∈ dels := by
      rcases FO.prov_d x hx with h | ⟨d2, hd2, hd2m, hx2, _⟩
      · exact h
      · rw [hx2] at hxm
        simp at hxm
    obtain ⟨a, ha, ham, hp⟩ := hinv.del_pair x hxin hxm
    have hbig := FO.matched_d_big x hx hxm
    exact ⟨a, FO.keep_big_a a ha ham x hxin hxm hp hbig, ham, hp⟩
  · intro y hy hym
    have hyin : y ∈ adds := by
      rcases FO.prov_a y hy with h | ⟨a, ha, ham, hy2, _⟩
      · exact h
      · rw [hy2] at hym
        simp at hym
    obtain ⟨d, hd, hdm, hp⟩ := hinv.add_pair y hyin hym
    have hbig := FO.matched_a_partner_big y hy hym d hd hdm hp.2.1
    exact ⟨d, FO.keep_big_d d hd hdm hbig, hdm, hp⟩
  · intro v
    exact le_trans (filter_phase_m_cnt recs1 min_size v dels adds).1 (hinv.del_uniq v)
  · intro v
    exact le_trans (filter_phase_m_cnt recs1 min_size v dels adds).2 (hinv.add_uniq v)
  · intro _
    exact FO.matched_d_big
  · intro x hx hxm
    rcases FO.prov_d x hx with h | ⟨d2, hd2, hd2m, hx2, hsm2⟩
    · rcases hinv.del_unm x h hxm with h1 | ⟨h1, _⟩
      · exact Or.inl h1
      · cases h1
    · refine Or.inr ⟨rfl, ?_⟩
      rw [hx2]
      exact hsm2
  · intro y hy hym
    rcases FO.prov_a y hy with h | _
    · rcases hinv.add_unm y h hym with h1 | h1
      · exact Or.inl h1
      · cases h1
    · exact Or.inr rfl

/-- The invariant transfers across signature-preserving rewrites (the zebra
phase). -/
theorem inv_of_sig {recs1 recs2 : List (List Char)} {changes : List XChange}
    {ws : MovedWsMode} {filtered : Bool} {min_size : Nat}
    {dels adds dels2 adds2 : List MovedBlock}
    (h1 : dels2.map sig = dels.map sig) (h2 : adds2.map sig = adds.map sig)
    (hinv : MovedInv recs1 recs2 changes ws filtered min_size dels adds) :
    MovedInv recs1 recs2 changes ws filtered min_size dels2 adds2 := by
  refine ⟨?_, ?_, ?_, ?_, ?_, ?_, ?_, ?_, ?_⟩
  · intro b hb
    obtain ⟨b0, hb0, he⟩ := mem_of_map_eq (map_core_of_map_sig h1) hb
    exact del_src_pred_of_core he (hinv.del_src b0 hb0)
  · intro b hb
    obtain ⟨b0, hb0, he⟩ := mem_of_map_eq (map_core_of_map_sig h2) hb
    exact add_src_pred_of_core he (hinv.add_src b0 hb0)
  · intro x hx hxm
    obtain ⟨x0, hx0, hex⟩ := mem_of_map_eq h1 hx
    obtain ⟨hcx, hmx, hlx⟩ := sig_eq_iff.mp hex
    obtain ⟨a, ha, ham, hp⟩ := hinv.del_pair x0 hx0 (by rw [hmx, hxm])
    obtain ⟨a2, ha2, hea⟩ := mem_of_map_eq h2.symm ha
    obtain ⟨hca, hma, hla⟩ := sig_eq_iff.mp hea
    obtain ⟨hsx, _, hhx, _⟩ := core_eq_iff.mp hcx
    obtain ⟨hsa, _, hha, _⟩ := core_eq_iff.mp hca
    obtain ⟨hq1, hq2, hq3⟩ := hp
    refine ⟨a2, ha2, by rw [hma, ham], ?_, ?_, ?_⟩
    · rw [hha, hq1, hhx]
    · rw [hla, hq2, hsx]
    · rw [← hlx, hq3, hsa]
  · intro y hy hym
    obtain ⟨y0, hy0, hey⟩ := mem_of_map_eq h2 hy
    obtain ⟨hcy, hmy, hly⟩ := sig_eq_iff.mp hey
    obtain ⟨d, hd, hdm, hp⟩ := hinv.add_pair y0 hy0 (by rw [hmy, hym])
    obtain ⟨d2, hd2, hed⟩ := mem_of_map_eq h1.symm hd
    obtain ⟨hcd, hmd, hld⟩ := sig_eq_iff.mp hed
    obtain ⟨hsy, _, hhy, _⟩ := core_eq_iff.mp hcy
    obtain ⟨hsd, _, hhd, _⟩ := core_eq_iff.mp hcd
    obtain ⟨hq1, hq2, hq3⟩ := hp
    refine ⟨d2, hd2, by rw [hmd, hdm], ?_, ?_, ?_⟩
    · rw [← hhy, hq1, hhd]
    · rw [← hly, hq2, hsd]
    · rw [hld, hq3, hsy]
  · intro v
    rw [m_cnt_congr h1 v]
    exact hinv.del_uniq v
  · intro v
    rw [m_cnt_congr h2 v]
    exact hinv.add_uniq v
  · intro hf x hx hxm
    obtain ⟨x0, hx0, hex⟩ := mem_of_map_eq h1 hx
    obtain ⟨hcx, hmx, _⟩ := sig_eq_iff.mp hex
    rw [← blk_alnum_congr recs1 hcx]
    exact hinv.del_big hf x0 hx0 (by rw [hmx, hxm])
  · intro x hx hxm
    obtain ⟨x0, hx0, hex⟩ := mem_of_map_eq h1 hx
    obtain ⟨hcx, hmx, hlx⟩ := sig_eq_iff.mp hex
    rcases hinv.del_unm x0 hx0 (by rw [hmx, hxm]) with h | ⟨hf, hsm⟩
    · exact Or.inl (by rw [← hlx, h])
    · exact Or.inr ⟨hf, by rw [← blk_alnum_congr recs1 hcx]; exact hsm⟩
  · intro y hy hym
    obtain ⟨y0, hy0, hey⟩ := mem_of_map_eq h2 hy
    obtain ⟨_, hmy, hly⟩ := sig_eq_iff.mp hey
    rcases hinv.add_unm y0 hy0 (by rw [hmy, hym]) with h | hf
    · exact Or.inl (by rw [← hly, h])
    · exact Or.inr hf

/-- The full moved-block pipeline: for every mode other than `no`, the final
context satisfies the invariant, with the size filter applied exactly in the
filtering modes.  The hypotheses ask that the collected blocks have
pairwise-distinct start lines on each side, which holds for the engine's
change scripts (their changes are disjoint and ordered). -/
theorem moved_pipeline (recs1 recs2 : List (List Char)) (changes : List XChange)
    (mode : MovedMode) (ws : MovedWsMode) (hmode : ¬ mode = MovedMode.no)
    (hnd1 : ((collect_phase recs1 recs2 ws changes ([], [])).1.map
      (fun b => b.start_line)).Nodup)
    (hnd2 : ((collect_phase recs1 recs2 ws changes ([], [])).2.map
      (fun b => b.start_line)).Nodup) :
    MovedInv recs1 recs2 changes ws mode.filters MIN_BLOCK_SIZE
      (collect_blocks_from_diff recs1 recs2 changes
        (moved_context_init mode ws)).deleted_blocks
      (collect_blocks_from_diff recs1 recs2 changes
        (moved_context_init mode ws)).added_blocks := by
  have hinv0 := inv_after_match recs1 recs2 changes ws MIN_BLOCK_SIZE hnd1 hnd2
  by_cases hf : mode.filters = true
  · have hnd1' : ((match_phase (collect_phase recs1 recs2 ws changes ([], [])).1
        (collect_phase recs1 recs2 ws changes ([], [])).2).1.map
        (fun b => b.start_line)).Nodup := by
      rw [map_start_of_map_core (match_phase_core
        (collect_phase recs1 recs2 ws changes ([], [])).1
        (collect_phase recs1 recs2 ws changes ([], [])).2).1]
      exact hnd1
    have hinv1 := inv_filter hinv0 hnd1'
    by_cases hz : mode.zebraing = true
    · have hdels : (collect_blocks_from_diff recs1 recs2 changes
          (moved_context_init mode ws)).deleted_blocks =
          (zebra_phase 0
            (filter_phase recs1 MIN_BLOCK_SIZE
              (match_phase (collect_phase recs1 recs2 ws changes ([], [])).1
                (collect_phase recs1 recs2 ws changes ([], [])).2).1
              (match_phase (collect_phase recs1 recs2 ws changes ([], [])).1
                (collect_phase recs1 recs2 ws changes ([], [])).2).2).1
            (filter_phase recs1 MIN_BLOCK_SIZE
              (match_phase (collect_phase recs1 recs2 ws changes ([], [])).1
                (collect_phase recs1 recs2 ws changes ([], [])).2).1
              (match_phase (collect_phase recs1 recs2 ws changes ([], [])).1
                (collect_phase recs1 recs2 ws changes ([], [])).2).2).2).1 := by
        simp [collect_blocks_from_diff, moved_context_init, hmode, hf, hz]
      have hadds : (collect_blocks_from_diff recs1 recs2 changes
          (moved_context_init mode ws)).added_blocks =
          (zebra_phase 0
            (filter_phase recs1 MIN_BLOCK_SIZE
              (match_phase (collect_phase recs1 recs2 ws changes ([], [])).1
                (collect_phase recs1 recs2 ws changes ([], [])).2).1
              (match_phase (collect_phase recs1 recs2 ws changes ([], [])).1
                (collect_phase recs1 recs2 ws changes ([], [])).2).2).1
            (filter_phase recs1 MIN_BLOCK_SIZE
              (match_phase (collect_phase recs1 recs2 ws changes ([], [])).1
                (collect_phase recs1 recs2 ws changes ([], [])).2).1
              (match_phase (collect_phase recs1 recs2 ws changes ([], [])).1
                (collect_phase recs1 recs2 ws changes ([], [])).2).2).2).2.1 := by
        simp [collect_blocks_from_diff, moved_context_init, hmode, hf, hz]
      rw [hdels, hadds, hf]
      obtain ⟨hz1, hz2⟩ := zebra_phase_sig
        (filter_phase recs1 MIN_BLOCK_SIZE
          (match_phase (collect_phase recs1 recs2 ws changes ([], [])).1
            (collect_phase recs1 recs2 ws changes ([], [])).2).1
          (match_phase (collect_phase recs1 recs2 ws changes ([], [])).1
            (collect_phase recs1 recs2 ws changes ([], [])).2).2).1 0
        (filter_phase recs1 MIN_BLOCK_SIZE
          (match_phase (collect_phase recs1 recs2 ws changes ([], [])).1
            (collect_phase recs1 recs2 ws changes ([], [])).2).1
          (match_phase (collect_phase recs1 recs2 ws changes ([], [])).1
            (collect_phase recs1 recs2 ws changes ([], [])).2).2).2
      exact inv_of_sig hz1 hz2 hinv1
    · have hz' : mode.zebraing = false := by
        cases h : mode.zebraing
        · rfl
        · exact absurd h hz
      have hdels : (collect_blocks_from_diff recs1 recs2 changes
          (moved_context_init mode ws)).deleted_blocks =
          (filter_phase recs1 MIN_BLOCK_SIZE
            (match_phase (collect_phase recs1 recs2 ws changes ([], [])).1
              (collect_phase recs1 recs2 ws changes ([], [])).2).1
            (match_phase (collect_phase recs1 recs2 ws changes ([], [])).1
              (collect_phase recs1 recs2 ws changes ([], [])).2).2).1 := by
        simp [collect_blocks_from_diff, moved_context_init, hmode, hf, hz']
      have hadds : (collect_blocks_from_diff recs1 recs2 changes
          (moved_context_init mode ws)).added_blocks =
          (filter_phase recs1 MIN_BLOCK_SIZE
            (match_phase (collect_phase recs1 recs2 ws changes ([], [])).1
              (collect_phase recs1 recs2 ws changes ([], [])).2).1
            (match_phase (collect_phase recs1 recs2 ws changes ([], [])).1
              (collect_phase recs1 recs2 ws changes ([], [])).2).2).2 := by
        simp [collect_blocks_from_diff, moved_context_init, hmode, hf, hz']
      rw [hdels, hadds, hf]
      exact hinv1
  · have hf' : mode.filters = false := by
      cases h : mode.filters
      · rfl
      · exact absurd h hf
    have hz' : mode.zebraing = false := by
      cases mode <;> simp_all [MovedMode.filters, MovedMode.zebraing]
    have hdels : (collect_blocks_from_diff recs1 recs2 changes
        (moved_context_init mode ws)).deleted_blocks =
        (match_phase (collect_phase recs1 recs2 ws changes ([], [])).1
          (collect_phase recs1 recs2 ws changes ([], [])).2).1 := by
      simp [collect_blocks_from_diff, moved_context_init, hmode, hf', hz']
    have hadds : (collect_blocks_from_diff recs1 recs2 changes
        (moved_context_init mode ws)).added_blocks =
        (match_phase (collect_phase recs1 recs2 ws changes ([], [])).1
          (collect_phase recs1 recs2 ws changes ([], [])).2).2 := by
      simp [collect_blocks_from_diff, moved_context_init, hmode, hf', hz']
    rw [hdels, hadds, hf']
    exact hinv0

/-- C3: the moved-block detector hashes each deleted hunk over the old
file's lines and each added hunk over the new file's lines with the
detector's own whitespace-normalization mode `ws` (the diff policy plays no
part), a deleted block marked matched always has a matched added partner
with an equal hash (and mutual `match_line`s), and in the size-filtering
modes every pair that stays matched has at least 20 alphanumeric characters
— pairs below the threshold were unmatched by the filter.  The start lines
of the collected blocks are assumed pairwise distinct on each side, as the
engine's ordered change scripts guarantee. -/
theorem c3_hash_match_filter (recs1 recs2 : List (List Char))
    (changes : List XChange) (mode : MovedMode) (ws : MovedWsMode)
    (hmode : ¬ mode = MovedMode.no)
    (hnd1 : ((collect_phase recs1 recs2 ws changes ([], [])).1.map
      (fun b => b.start_line)).Nodup)
    (hnd2 : ((collect_phase recs1 recs2 ws changes ([], [])).2.map
      (fun b => b.start_line)).Nodup) :
    (∀ b ∈ (collect_blocks_from_diff recs1 recs2 changes
        (moved_context_init mode ws)).deleted_blocks,
      ∃ xch ∈ changes, xch.ignore = false ∧ 0 < xch.chg1 ∧
        b.start_line = xch.i1 + 1 ∧ b.end_line = xch.i1 + xch.chg1 ∧
        b.hash = compute_block_hash recs1 xch.i1 xch.chg1 ws) ∧
    (∀ b ∈ (collect_blocks_from_diff recs1 recs2 changes
        (moved_context_init mode ws)).added_blocks,
      ∃ xch ∈ changes, xch.ignore = false ∧ 0 < xch.chg2 ∧
        b.start_line = xch.i2 + 1 ∧ b.end_line = xch.i2 + xch.chg2 ∧
        b.hash = compute_block_hash recs2 xch.i2 xch.chg2 ws) ∧
    (∀ d ∈ (collect_blocks_from_diff recs1 recs2 changes
        (moved_context_init mode ws)).deleted_blocks, d.matched = true →
      ∃ a ∈ (collect_blocks_from_diff recs1 recs2 changes
        (moved_context_init mode ws)).added_blocks, a.matched = true ∧
        a.hash = d.hash ∧ a.match_line = (d.start_line : Int) ∧
        d.match_line = (a.start_line : Int)) ∧
    (mode.filters = true →
      ∀ d ∈ (collect_blocks_from_diff recs1 recs2 changes
        (moved_context_init mode ws)).deleted_blocks, d.matched = true →
        20 ≤ blk_alnum recs1 d) := by
  have H := moved_pipeline recs1 recs2 changes mode ws hmode hnd1 hnd2
  refine ⟨?_, ?_, ?_, ?_⟩
  · intro b hb
    obtain ⟨x, hx, hig, hch, h1, h2, h3, h4⟩ := H.del_src b hb
    exact ⟨x, hx, hig, hch, h1, h2, h4⟩
  · intro b hb
    obtain ⟨x, hx, hig, hch, h1, h2, h3, h4⟩ := H.add_src b hb
    exact ⟨x, hx, hig, hch, h1, h2, h4⟩
  · intro d hd hdm
    obtain ⟨a, ha, ham, hp⟩ := H.del_pair d hd hdm
    exact ⟨a, ha, ham, hp.1, hp.2.1, hp.2.2⟩
  · intro hfm d hd hdm
    exact H.del_big hfm d hd hdm

/-- Witness for C3 at a concrete input: one change replacing the single line
of the old file by the single line of the new file, in `blocks` mode. -/
theorem c3_hash_match_filter_witness :
    (¬ MovedMode.blocks = MovedMode.no) ∧
    ((collect_phase [['x']] [['x']] MovedWsMode.ws_no
      [{ i1 := 0, chg1 := 1, i2 := 0, chg2 := 1, ignore := false }] ([], [])).1.map
      (fun b => b.start_line)).Nodup ∧
    ((collect_phase [['x']] [['x']] MovedWsMode.ws_no
      [{ i1 := 0, chg1 := 1, i2 := 0, chg2 := 1, ignore := false }] ([], [])).2.map
      (fun b => b.start_line)).Nodup ∧
    ((∀ b ∈ (collect_blocks_from_diff [['x']] [['x']]
        [{ i1 := 0, chg1 := 1, i2 := 0, chg2 := 1, ignore := false }]
        (moved_context_init MovedMode.blocks MovedWsMode.ws_no)).deleted_blocks,
      ∃ xch ∈ [{ i1 := 0, chg1 := 1, i2 := 0, chg2 := 1, ignore := false }],
        XChange.ignore xch = false ∧ 0 < xch.chg1 ∧
        b.start_line = xch.i1 + 1 ∧ b.end_line = xch.i1 + xch.chg1 ∧
        b.hash = compute_block_hash [['x']] xch.i1 xch.chg1 MovedWsMode.ws_no) ∧
    (∀ b ∈ (collect_blocks_from_diff [['x']] [['x']]
        [{ i1 := 0, chg1 := 1, i2 := 0, chg2 := 1, ignore := false }]
        (moved_context_init MovedMode.blocks MovedWsMode.ws_no)).added_blocks,
      ∃ xch ∈ [{ i1 := 0, chg1 := 1, i2 := 0, chg2 := 1, ignore := false }],
        XChange.ignore xch = false ∧ 0 < xch.chg2 ∧
        b.start_line = xch.i2 + 1 ∧ b.end_line = xch.i2 + xch.chg2 ∧
        b.hash = compute_block_hash [['x']] xch.i2 xch.chg2 MovedWsMode.ws_no) ∧
    (∀ d ∈ (collect_blocks_from_diff [['x']] [['x']]
        [{ i1 := 0, chg1 := 1, i2 := 0, chg2 := 1, ignore := false }]
        (moved_context_init MovedMode.blocks MovedWsMode.ws_no)).deleted_blocks,
      d.matched = true →
      ∃ a ∈ (collect_blocks_from_diff [['x']] [['x']]
        [{ i1 := 0, chg1 := 1, i2 := 0, chg2 := 1, ignore := false }]
        (moved_context_init MovedMode.blocks MovedWsMode.ws_no)).added_blocks,
        a.matched = true ∧ a.hash = d.hash ∧ a.match_line = (d.start_line : Int) ∧
        d.match_line = (a.start_line : Int)) ∧
    (MovedMode.filters MovedMode.blocks = true →
      ∀ d ∈ (collect_blocks_from_diff [['x']] [['x']]
        [{ i1 := 0, chg1 := 1, i2 := 0, chg2 := 1, ignore := false }]
        (moved_context_init MovedMode.blocks MovedWsMode.ws_no)).deleted_blocks,
        d.matched = true → 20 ≤ blk_alnum [['x']] d)) :=
  ⟨by decide, by decide, by decide,
    c3_hash_match_filter [['x']] [['x']]
      [{ i1 := 0, chg1 := 1, i2 := 0, chg2 := 1, ignore := false }]
      MovedMode.blocks MovedWsMode.ws_no (by decide) (by decide) (by decide)⟩

/-- C10, counterexample: in `blocks` mode, a small matched pair is unmatched
by the size filter but keeps its stale `match_line`, so a block with
`matched = false` need not have `match_line = -1`: detecting one change that
replaces the old file's single line `x` by the new file's equal line leaves
a deleted block with `matched = false` and `match_line = 1`. -/
theorem c10_counterexample :
    ∃ b ∈ (collect_blocks_from_diff [['x']] [['x']]
      [{ i1 := 0, chg1 := 1, i2 := 0, chg2 := 1, ignore := false }]
      (moved_context_init MovedMode.blocks MovedWsMode.ws_no)).deleted_blocks,
      b.matched = false ∧ ¬ b.match_line = -1 := by decide

/-- C10 (amended): after `collect_blocks_from_diff` with a mode other than
`no`, matching is a mutual one-to-one pairing — every matched deleted block
has a matched added partner with an equal hash and mutual `match_line`s,
and vice versa, with at most one matched block pointing at any given line on
either side (so the partner is unique); the size filter preserves the
pairing by unmatching both members of a pair together.  A block with
`matched = false` has `match_line = -1` unless the size filter unmatched it
(filtering modes only), in which case the stale `match_line` of its former
pair remains.  The collected start lines are assumed pairwise distinct on
each side, as the engine's ordered change scripts guarantee. -/
theorem c10_pairing_invariant (recs1 recs2 : List (List Char))
    (changes : List XChange) (mode : MovedMode) (ws : MovedWsMode)
    (hmode : ¬ mode = MovedMode.no)
    (hnd1 : ((collect_phase recs1 recs2 ws changes ([], [])).1.map
      (fun b => b.start_line)).Nodup)
    (hnd2 : ((collect_phase recs1 recs2 ws changes ([], [])).2.map
      (fun b => b.start_line)).Nodup) :
    (∀ d ∈ (collect_blocks_from_diff recs1 recs2 changes
        (moved_context_init mode ws)).deleted_blocks, d.matched = true →
      ∃ a ∈ (collect_blocks_from_diff recs1 recs2 changes
        (moved_context_init mode ws)).added_blocks, a.matched = true ∧
        a.hash = d.hash ∧ a.match_line = (d.start_line : Int) ∧
        d.match_line = (a.start_line : Int)) ∧
    (∀ a ∈ (collect_blocks_from_diff recs1 recs2 changes
        (moved_context_init mode ws)).added_blocks, a.matched = true →
      ∃ d ∈ (collect_blocks_from_diff recs1 recs2 changes
        (moved_context_init mode ws)).deleted_blocks, d.matched = true ∧
        a.hash = d.hash ∧ a.match_line = (d.start_line : Int) ∧
        d.match_line = (a.start_line : Int)) ∧
    (∀ v, m_cnt v (collect_blocks_from_diff recs1 recs2 changes
        (moved_context_init mode ws)).deleted_blocks ≤ 1) ∧
    (∀ v, m_cnt v (collect_blocks_from_diff recs1 recs2 changes
        (moved_context_init mode ws)).added_blocks ≤ 1) ∧
    (∀ d ∈ (collect_blocks_from_diff recs1 recs2 changes
        (moved_context_init mode ws)).deleted_blocks, d.matched = false →
      d.match_line = -1 ∨
        (mode.filters = true ∧ blk_alnum recs1 d < MIN_BLOCK_SIZE)) ∧
    (∀ a ∈ (collect_blocks_from_diff recs1 recs2 changes
        (moved_context_init mode ws)).added_blocks, a.matched = false →
      a.match_line = -1 ∨ mode.filters = true) := by
  have H := moved_pipeline recs1 recs2 changes mode ws hmode hnd1 hnd2
  refine ⟨?_, ?_, H.del_uniq, H.add_uniq, H.del_unm, H.add_unm⟩
  · intro d hd hdm
    obtain ⟨a, ha, ham, hp⟩ := H.del_pair d hd hdm
    exact ⟨a, ha, ham, hp.1, hp.2.1, hp.2.2⟩
  · intro a ha ham
    obtain ⟨d, hd, hdm, hp⟩ := H.add_pair a ha ham
    exact ⟨d, hd, hdm, hp.1, hp.2.1, hp.2.2⟩

/-- Witness for the amended C10 at a concrete input: two changes moving a
line, in `plain` mode. -/
theorem c10_pairing_invariant_witness :
    (¬ MovedMode.plain = MovedMode.no) ∧
    ((collect_phase [['x'], ['y']] [['y'], ['x']] MovedWsMode.ws_no
      [{ i1 := 0, chg1 := 1, i2 := 0, chg2 := 0, ignore := false },
       { i1 := 2, chg1 := 0, i2 := 1, chg2 := 1, ignore := false }] ([], [])).1.map
      (fun b => b.start_line)).Nodup ∧
    ((collect_phase [['x'], ['y']] [['y'], ['x']] MovedWsMode.ws_no
      [{ i1 := 0, chg1 := 1, i2 := 0, chg2 := 0, ignore := false },
       { i1 := 2, chg1 := 0, i2 := 1, chg2 := 1, ignore := false }] ([], [])).2.map
      (fun b => b.start_line)).Nodup ∧
    ((∀ d ∈ (collect_blocks_from_diff [['x'], ['y']] [['y'], ['x']]
        [{ i1 := 0, chg1 := 1, i2 := 0, chg2 := 0, ignore := false },
         { i1 := 2, chg1 := 0, i2 := 1, chg2 := 1, ignore := false }]
        (moved_context_init MovedMode.plain MovedWsMode.ws_no)).deleted_blocks,
      d.matched = true →
      ∃ a ∈ (collect_blocks_from_diff [['x'], ['y']] [['y'], ['x']]
        [{ i1 := 0, chg1 := 1, i2 := 0, chg2 := 0, ignore := false },
         { i1 := 2, chg1 := 0, i2 := 1, chg2 := 1, ignore := false }]
        (moved_context_init MovedMode.plain MovedWsMode.ws_no)).added_blocks,
        a.matched = true ∧ a.hash = d.hash ∧ a.match_line = (d.start_line : Int) ∧
        d.match_line = (a.start_line : Int)) ∧
    (∀ a ∈ (collect_blocks_from_diff [['x'], ['y']] [['y'], ['x']]
        [{ i1 := 0, chg1 := 1, i2 := 0, chg2 := 0, ignore := false },
         { i1 := 2, chg1 := 0, i2 := 1, chg2 := 1, ignore := false }]
        (moved_context_init MovedMode.plain MovedWsMode.ws_no)).added_blocks,
      a.matched = true →
      ∃ d ∈ (collect_blocks_from_diff [['x'], ['y']] [['y'], ['x']]
        [{ i1 := 0, chg1 := 1, i2 := 0, chg2 := 0, ignore := false },
         { i1 := 2, chg1 := 0, i2 := 1, chg2 := 1, ignore := false }]
        (moved_context_init MovedMode.plain MovedWsMode.ws_no)).deleted_blocks,
        d.matched = true ∧ a.hash = d.hash ∧ a.match_line = (d.start_line : Int) ∧
        d.match_line = (a.start_line : Int)) ∧
    (∀ v, m_cnt v (collect_blocks_from_diff [['x'], ['y']] [['y'], ['x']]
        [{ i1 := 0, chg1 := 1, i2 := 0, chg2 := 0, ignore := false },
         { i1 := 2, chg1 := 0, i2 := 1, chg2 := 1, ignore := false }]
        (moved_context_init MovedMode.plain MovedWsMode.ws_no)).deleted_blocks ≤ 1) ∧
    (∀ v, m_cnt v (collect_blocks_from_diff [['x'], ['y']] [['y'], ['x']]
        [{ i1 := 0, chg1 := 1, i2 := 0, chg2 := 0, ignore := false },
         { i1 := 2, chg1 := 0, i2 := 1, chg2 := 1, ignore := false }]
        (moved_context_init MovedMode.plain MovedWsMode.ws_no)).added_blocks ≤ 1) ∧
    (∀ d ∈ (collect_blocks_from_diff [['x'], ['y']] [['y'], ['x']]
        [{ i1 := 0, chg1 := 1, i2 := 0, chg2 := 0, ignore := false },
         { i1 := 2, chg1 := 0, i2 := 1, chg2 := 1, ignore := false }]
        (moved_context_init MovedMode.plain MovedWsMode.ws_no)).deleted_blocks,
      d.matched = false →
      d.match_line = -1 ∨
        (MovedMode.filters MovedMode.plain = true ∧
          blk_alnum [['x'], ['y']] d < MIN_BLOCK_SIZE)) ∧
    (∀ a ∈ (collect_blocks_from_diff [['x'], ['y']] [['y'], ['x']]
        [{ i1 := 0, chg1 := 1, i2 := 0, chg2 := 0, ignore := false },
         { i1 := 2, chg1 := 0, i2 := 1, chg2 := 1, ignore := false }]
        (moved_context_init MovedMode.plain MovedWsMode.ws_no)).added_blocks,
      a.matched = false →
      a.match_line = -1 ∨ MovedMode.filters MovedMode.plain = true)) :=
  ⟨by decide, by decide, by decide,
    c10_pairing_invariant [['x'], ['y']] [['y'], ['x']]
      [{ i1 := 0, chg1 := 1, i2 := 0, chg2 := 0, ignore := false },
       { i1 := 2, chg1 := 0, i2 := 1, chg2 := 1, ignore := false }]
      MovedMode.plain MovedWsMode.ws_no (by decide) (by decide) (by decide)⟩

end Xdiff

